import Mathlib

/-!
Verification of the template-driven projection and routing engine of the
salt-influxdb formula (returner `influxdb2_return.py` and utility module
`influxdb2util.py`), as a shallow embedding in Lean 4.

Strings are modelled as `List Char`.  Curly braces inside modelled string
constants are produced via `Char.ofNat` to keep template syntax explicit.
-/

/-- Strings of the embedded program are lists of characters. -/
abbrev Str := List Char

/-- Left curly brace character. -/
def lbrace : Char := Char.ofNat 123

/-- Right curly brace character. -/
def rbrace : Char := Char.ofNat 125

/-- Convert a Lean string literal to the embedded string type. -/
def str (s : String) : Str := s.toList

/-!
## Regular expressions

The repository uses Python regular expressions for routing (`RegexDict`),
filtering (`_re_match`/`_join_regex`) and match predicates.  We embed the
fragment of the regex language the code manipulates (literal characters,
`.`, alternation, concatenation, Kleene star) with Brzozowski-derivative
matching.  As in Python (without `re.DOTALL`), `.` does not match a newline.
-/

inductive Regex
  | fail
  | eps
  | chr (c : Char)
  | dot
  | alt (r1 r2 : Regex)
  | cat (r1 r2 : Regex)
  | star (r : Regex)
deriving DecidableEq

/-- Whether a regex accepts the empty string. -/
def Regex.nullable : Regex → Bool
  | .fail => false
  | .eps => true
  | .chr _ => false
  | .dot => false
  | .alt r1 r2 => r1.nullable || r2.nullable
  | .cat r1 r2 => r1.nullable && r2.nullable
  | .star _ => true

/-- Brzozowski derivative of a regex by one character. -/
def Regex.deriv : Regex → Char → Regex
  | .fail, _ => .fail
  | .eps, _ => .fail
  | .chr c, c' => if c = c' then .eps else .fail
  | .dot, c' => if c' = '\n' then .fail else .eps
  | .alt r1 r2, c => .alt (r1.deriv c) (r2.deriv c)
  | .cat r1 r2, c =>
      if r1.nullable then .alt (.cat (r1.deriv c) r2) (r2.deriv c)
      else .cat (r1.deriv c) r2
  | .star r, c => .cat (r.deriv c) (.star r)

/-- Anchored match of the whole string, as Python's `re.fullmatch`. -/
def Regex.fullmatch (r : Regex) : Str → Bool
  | [] => r.nullable
  | c :: s => (r.deriv c).fullmatch s

/-- One-or-more repetition, Python's `+`. -/
def Regex.plus (r : Regex) : Regex := .cat r (.star r)

/-- Zero-or-more arbitrary characters, Python's `.*`. -/
def Regex.dotStar : Regex := .star .dot

theorem Regex.fullmatch_fail (s : Str) : Regex.fail.fullmatch s = false := by
  induction s with
  | nil => rfl
  | cons c s ih => simpa [Regex.fullmatch, Regex.deriv] using ih

theorem Regex.fullmatch_eps (s : Str) : Regex.eps.fullmatch s = decide (s = []) := by
  cases s with
  | nil => rfl
  | cons c s =>
      simp [Regex.fullmatch, Regex.deriv, Regex.fullmatch_fail]

theorem Regex.fullmatch_alt (s : Str) (r1 r2 : Regex) :
    (Regex.alt r1 r2).fullmatch s = (r1.fullmatch s || r2.fullmatch s) := by
  induction s generalizing r1 r2 with
  | nil => rfl
  | cons c s ih => simpa [Regex.fullmatch, Regex.deriv] using ih (r1.deriv c) (r2.deriv c)

/-!
## Allow/Block Filter Compiler (`_join_regex` / `_re_match`,
`influxdb2_return.py` lines 867–884)

`_join_regex` joins the patterns into `"(p1)|(p2)|..."`; for the empty list
`"|".join` yields the empty pattern, which in Python matches exactly the
empty string — modelled by `Regex.eps`.  `_re_match` runs `re.fullmatch` on
the joined pattern (the `except` branch for syntactically invalid patterns
is unrepresentable here because `Regex` values are well formed by
construction).
-/

/-- `_join_regex`: the joined alternation, with the empty join being the
empty pattern (which matches only the empty string). -/
def joinRegex : List Regex → Regex
  | [] => .eps
  | [p] => p
  | p :: ps => .alt p (joinRegex ps)

/-- `_re_match(patterns, data)`. -/
def reMatch (patterns : List Regex) (data : Str) : Bool :=
  (joinRegex patterns).fullmatch data

theorem joinRegex_fullmatch (ps : List Regex) (s : Str) :
    (joinRegex ps).fullmatch s = ps.any (fun p => p.fullmatch s) ∨ ps = [] := by
  induction ps with
  | nil => exact Or.inr rfl
  | cons p ps ih =>
      left
      cases ps with
      | nil => simp [joinRegex, List.any]
      | cons q qs =>
          rcases ih with h | h
          · simp only [joinRegex, Regex.fullmatch_alt, h, List.any_cons]
          · exact absurd h (by simp)

/-!
## Pattern Router (`RegexDict`, `influxdb2util.py` lines 113-152)

`RegexDict.__init__` stores the patterns and payloads in insertion order and
compiles the single alternation `"|".join(f"({ptrn})" for ptrn in patterns)`.
`__getitem__` runs `fullmatch` on that alternation; on a match it returns
`self._data[match.lastindex - 1]`, and otherwise raises `KeyError`.  For
patterns without internal capture groups (the embedded `Regex` type has
none), Python's backtracking engine succeeds with `lastindex = i + 1` for
the least `i` whose pattern fully matches the key, because alternatives are
tried left to right and each alternative is its own group.  For the empty
mapping the joined alternation is the empty pattern, which fully matches
exactly the empty key with no participating group: `match.lastindex` is
then `None` and `self._data[None - 1]` raises `TypeError`, not `KeyError`.
-/

/-- The two exceptions `RegexDict.__getitem__` can raise: `KeyError` when
the joined alternation does not match, `TypeError` from
`self._data[None - 1]` when it matches with `lastindex = None`. -/
inductive LookupErr
  | keyError
  | typeError
deriving DecidableEq

deriving instance DecidableEq for Except

/-- Index of the first pattern in the joined alternation that fully matches
the key: the value of `match.lastindex - 1` when some group participated in
the match (for the empty pattern list no group can participate and
`lastindex` is `None`; that case is handled in `RegexDict.getItem`). -/
def altMatchIndex : List Regex → Str → Option Nat
  | [], _ => none
  | p :: ps, key =>
      if p.fullmatch key then some 0 else (altMatchIndex ps key).map (· + 1)

theorem altMatchIndex_nil (key : Str) : altMatchIndex [] key = none := rfl

/-- `self._data[match.lastindex - 1]` in one step: the payload stored next
to the first pattern that fully matches the key, `none` when no group
participated in the match. -/
def altMatchPayload {α : Type} : List (Regex × α) → Str → Option α
  | [], _ => none
  | pa :: ps, key => if pa.1.fullmatch key then some pa.2 else altMatchPayload ps key

/-- `RegexDict.__getitem__`: run `fullmatch` on the joined alternation; on
a match return the payload of the participating group, except that a match
with `lastindex = None` (the empty mapping matching the empty key) raises
`TypeError` via `self._data[None - 1]`; no match raises `KeyError`. -/
def RegexDict.getItem {α : Type} (mappings : List (Regex × α)) (key : Str) :
    Except LookupErr α :=
  if (joinRegex (mappings.map Prod.fst)).fullmatch key then
    match altMatchPayload mappings key with
    | some a => .ok a
    | none => .error .typeError
  else .error .keyError

theorem altMatchPayload_eq_find {α : Type} (m : List (Regex × α)) (key : Str) :
    altMatchPayload m key =
      (m.find? (fun pv => pv.1.fullmatch key)).map (fun pv => pv.2) := by
  induction m with
  | nil => rfl
  | cons pa ps ih =>
      rw [altMatchPayload]
      by_cases h : pa.1.fullmatch key = true
      · rw [if_pos h, List.find?_cons_of_pos _ (by simpa using h)]
        rfl
      · rw [if_neg (by simpa using h), List.find?_cons_of_neg _ (by simpa using h), ih]

/-- C1 (amended): a `RegexDict` lookup returns the payload of the first
pattern, in insertion order, whose pattern fully matches the key; when no
pattern fully matches it raises `KeyError`, except for the empty mapping
queried with the empty key, where the empty joined pattern matches with
`lastindex = None` and `self._data[None - 1]` raises `TypeError`; the final
two conjuncts are the spec route-order example with patterns `a.*` and
`.*` and key `abc`, in both orders. -/
theorem regexDict_lookup_first_full_match {α : Type} (m : List (Regex × α)) (key : Str) :
    (RegexDict.getItem m key =
      match m.find? (fun pv => pv.1.fullmatch key) with
      | some pv => .ok pv.2
      | none => if m.isEmpty ∧ key = [] then .error .typeError else .error .keyError) ∧
    RegexDict.getItem
        [(Regex.cat (.chr 'a') Regex.dotStar, (1 : ℕ)), (Regex.dotStar, 2)] (str "abc")
      = .ok 1 ∧
    RegexDict.getItem
        [(Regex.dotStar, (2 : ℕ)), (Regex.cat (.chr 'a') Regex.dotStar, 1)] (str "abc")
      = .ok 2 := by
  refine ⟨?_, by decide, by decide⟩
  rw [RegexDict.getItem, altMatchPayload_eq_find]
  cases m with
  | nil =>
      rw [show (([] : List (Regex × α)).map Prod.fst) = [] from rfl]
      rw [show joinRegex [] = Regex.eps from rfl, Regex.fullmatch_eps]
      by_cases hk : key = []
      · subst hk
        simp
      · simp [hk]
  | cons pa ps =>
      rcases joinRegex_fullmatch ((pa :: ps).map Prod.fst) key with hj | hj
      · rw [hj]
        by_cases ha : ((pa :: ps).map Prod.fst).any (fun p => p.fullmatch key) = true
        · rw [if_pos ha]
          have hex : ∃ x ∈ pa :: ps, x.1.fullmatch key = true := by
            rcases List.any_eq_true.mp ha with ⟨y, hy1, hy2⟩
            rcases List.mem_map.mp hy1 with ⟨x, hx1, hx2⟩
            refine ⟨x, hx1, ?_⟩
            rw [hx2]
            simpa using hy2
          have hsome : (List.find? (fun pv => pv.1.fullmatch key) (pa :: ps)).isSome := by
            rw [List.find?_isSome]
            exact hex
          obtain ⟨pv, hpv⟩ := Option.isSome_iff_exists.mp hsome
          rw [hpv]
          rfl
        · rw [if_neg ha]
          have hnone : List.find? (fun pv => pv.1.fullmatch key) (pa :: ps) = none := by
            rw [List.find?_eq_none]
            intro x hx
            intro hxx
            apply ha
            rw [List.any_eq_true]
            exact ⟨x.1, List.mem_map.mpr ⟨x, hx, rfl⟩, by simpa using hxx⟩
          rw [hnone]
          simp
      · exact absurd hj (by simp)

/-- C1 counterexample: the empty mapping joined pattern is the empty
pattern, which fully matches the empty key with `lastindex = None`, so the
lookup raises `TypeError` from `self._data[None - 1]` — not the `KeyError`
the claim asserts whenever no pattern of the mapping matches the key. -/
theorem regexDict_empty_lookup_type_error :
    RegexDict.getItem ([] : List (Regex × ℕ)) [] = .error .typeError ∧
    (Except.error .typeError : Except LookupErr ℕ) ≠ .error .keyError := by
  exact ⟨by decide, by decide⟩

/-- C9 counterexample: joining the empty pattern list yields the empty
pattern, and the compiled matcher's full-match test on the empty string
returns `true`, not `false` as the claim states for every input string. -/
theorem reMatch_empty_list_matches_empty_string : reMatch [] [] = true := rfl

/-- C9 (amended): the matcher compiled from the empty pattern list rejects
every non-empty string (but accepts the empty string, since the joined
pattern is the empty pattern); for non-empty pattern lists the test is true
exactly when the string fully matches some pattern of the alternation; and
the spec's concrete filter examples hold. -/
theorem reMatch_alternation_spec :
    (∀ s : Str, s ≠ [] → reMatch [] s = false) ∧
    (∀ (ps : List Regex) (s : Str), ps ≠ [] →
        (reMatch ps s = true ↔ ∃ p ∈ ps, p.fullmatch s = true)) ∧
    reMatch [Regex.plus (.chr 'a'), .chr 'b'] (str "aaa") = true ∧
    reMatch [Regex.plus (.chr 'a'), .chr 'b'] (str "c") = false := by
  refine ⟨?_, ?_, by decide, by decide⟩
  · intro s hs
    have h := Regex.fullmatch_eps s
    simp only [reMatch, joinRegex]
    rw [h]
    simp [hs]
  · intro ps s hps
    rcases joinRegex_fullmatch ps s with h | h
    · simp only [reMatch, h, List.any_eq_true]
    · exact absurd h hps

/-!
## Python data values

Records (function returns, events, template data) are arbitrary nested
Python structures.  We model the JSON-like fragment the returner
manipulates: `None`, booleans, integers, strings, lists and
insertion-ordered string-keyed dicts.  Floats and bytes are outside the
model (no claim needs a float-valued or bytes-valued record entry).
-/

inductive Value
  | null
  | bool (b : Bool)
  | int (n : Int)
  | str (s : Str)
  | list (xs : List Value)
  | dict (xs : List (Str × Value))

mutual
def Value.beq : Value → Value → Bool
  | .null, .null => true
  | .bool a, .bool b => a == b
  | .int a, .int b => a == b
  | .str a, .str b => a == b
  | .list a, .list b => Value.beqList a b
  | .dict a, .dict b => Value.beqDict a b
  | _, _ => false
def Value.beqList : List Value → List Value → Bool
  | [], [] => true
  | a :: as, b :: bs => Value.beq a b && Value.beqList as bs
  | _, _ => false
def Value.beqDict : List (Str × Value) → List (Str × Value) → Bool
  | [], [] => true
  | (k, v) :: as, (k', v') :: bs => k == k' && Value.beq v v' && Value.beqDict as bs
  | _, _ => false
end

mutual
theorem Value.beq_iff : ∀ a b : Value, Value.beq a b = true ↔ a = b
  | .null, .null => by simp [Value.beq]
  | .null, .bool _ | .null, .int _ | .null, .str _ | .null, .list _ | .null, .dict _ =>
      by simp [Value.beq]
  | .bool _, .null | .bool _, .int _ | .bool _, .str _ | .bool _, .list _ | .bool _, .dict _ =>
      by simp [Value.beq]
  | .int _, .null | .int _, .bool _ | .int _, .str _ | .int _, .list _ | .int _, .dict _ =>
      by simp [Value.beq]
  | .str _, .null | .str _, .bool _ | .str _, .int _ | .str _, .list _ | .str _, .dict _ =>
      by simp [Value.beq]
  | .list _, .null | .list _, .bool _ | .list _, .int _ | .list _, .str _ | .list _, .dict _ =>
      by simp [Value.beq]
  | .dict _, .null | .dict _, .bool _ | .dict _, .int _ | .dict _, .str _ | .dict _, .list _ =>
      by simp [Value.beq]
  | .bool a, .bool b => by simp [Value.beq]
  | .int a, .int b => by simp [Value.beq]
  | .str a, .str b => by simp [Value.beq]
  | .list a, .list b => by
      rw [Value.beq, Value.beqList_iff a b]
      simp
  | .dict a, .dict b => by
      rw [Value.beq, Value.beqDict_iff a b]
      simp
theorem Value.beqList_iff : ∀ a b : List Value, Value.beqList a b = true ↔ a = b
  | [], [] => by simp [Value.beqList]
  | [], _ :: _ | _ :: _, [] => by simp [Value.beqList]
  | a :: as, b :: bs => by
      rw [Value.beqList, Bool.and_eq_true, Value.beq_iff a b, Value.beqList_iff as bs]
      simp
theorem Value.beqDict_iff : ∀ a b : List (Str × Value), Value.beqDict a b = true ↔ a = b
  | [], [] => by simp [Value.beqDict]
  | [], _ :: _ | _ :: _, [] => by simp [Value.beqDict]
  | (k, v) :: as, (k', v') :: bs => by
      rw [Value.beqDict]
      simp only [Bool.and_eq_true, Value.beq_iff v v', Value.beqDict_iff as bs, beq_iff_eq]
      simp [Prod.ext_iff, and_assoc]
end

instance : DecidableEq Value := fun a b => decidable_of_iff _ (Value.beq_iff a b)

/-- Single quote character. -/
def squote : Char := Char.ofNat 39

/-- Double quote character. -/
def dquote : Char := Char.ofNat 34

/-- Decimal rendering of a natural number. -/
def natStr (n : ℕ) : Str := Nat.toDigits 10 n

/-- Decimal rendering of an integer, as Python renders `int`. -/
def intStr : Int → Str
  | .ofNat n => natStr n
  | .negSucc n => '-' :: natStr (n + 1)

/-!
The returner stringifies values in three Python ways: `str(...)` (tag
stringification, `ret_str`), `repr(...)` (only reachable for compound
values inside `str`, via Python `str == repr` on containers) and
`json.dumps(..., cls=BytesEncoder)` (the `_ensure_type` /
`JsonFormatter.format_field` fallback).  `pyRepr` models `repr` without
quote/control escaping inside string literals (no claim depends on it) and
`pyJson` models `json.dumps` with its default `", "`/`": "` separators and
backslash, quote, newline, carriage-return and tab escapes.
-/

mutual
def pyRepr : Value → Str
  | .null => str "None"
  | .bool true => str "True"
  | .bool false => str "False"
  | .int n => intStr n
  | .str s => squote :: s ++ [squote]
  | .list xs => '[' :: pyReprList xs ++ [']']
  | .dict xs => lbrace :: pyReprDict xs ++ [rbrace]
def pyReprList : List Value → Str
  | [] => []
  | [v] => pyRepr v
  | v :: vs => pyRepr v ++ str ", " ++ pyReprList vs
def pyReprDict : List (Str × Value) → Str
  | [] => []
  | [(k, v)] => squote :: k ++ [squote] ++ str ": " ++ pyRepr v
  | (k, v) :: xs => squote :: k ++ [squote] ++ str ": " ++ pyRepr v ++ str ", " ++ pyReprDict xs
end

/-- Python `str(...)` on a value; on containers `str` falls back to `repr`. -/
def pyStr : Value → Str
  | .null => str "None"
  | .bool true => str "True"
  | .bool false => str "False"
  | .int n => intStr n
  | .str s => s
  | .list xs => pyRepr (.list xs)
  | .dict xs => pyRepr (.dict xs)

/-- JSON escaping of one character inside a string literal. -/
def jsonEscape (c : Char) : Str :=
  if c = dquote then ['\\', dquote]
  else if c = '\\' then ['\\', '\\']
  else if c = '\n' then ['\\', 'n']
  else if c = '\r' then ['\\', 'r']
  else if c = '\t' then ['\\', 't']
  else [c]

mutual
def pyJson : Value → Str
  | .null => str "null"
  | .bool true => str "true"
  | .bool false => str "false"
  | .int n => intStr n
  | .str s => dquote :: s.flatMap jsonEscape ++ [dquote]
  | .list xs => '[' :: pyJsonList xs ++ [']']
  | .dict xs => lbrace :: pyJsonDict xs ++ [rbrace]
def pyJsonList : List Value → Str
  | [] => []
  | [v] => pyJson v
  | v :: vs => pyJson v ++ str ", " ++ pyJsonList vs
def pyJsonDict : List (Str × Value) → Str
  | [] => []
  | [(k, v)] => dquote :: k.flatMap jsonEscape ++ [dquote] ++ str ": " ++ pyJson v
  | (k, v) :: xs =>
      dquote :: k.flatMap jsonEscape ++ [dquote] ++ str ": " ++ pyJson v ++ str ", " ++
        pyJsonDict xs
end

/-- `Projector._ensure_type` (`influxdb2util.py` lines 195–205): integers,
floats, strings and booleans pass through; anything else (including `None`,
which is not an instance of those types) is dumped to a JSON string. -/
def ensureType (v : Value) : Value :=
  match v with
  | .int _ | .bool _ | .str _ => v
  | .null | .list _ | .dict _ => .str (pyJson v)

/-!
## Nested data accessor

`salt.utils.data.traverse_dict_and_list` resolves a colon-delimited path:
a mapping is indexed by key, a list by `int(segment)` (negative indices
count from the end, out-of-range is a miss), a list with a non-integer
segment is scanned for the first embedded dict carrying that key, and any
other situation (scalar pointer, absent key) returns the default — here the
`Option` miss, the `KeyError` sentinel the callers pass.  Python's
`int(...)` underscore and whitespace tolerance is not modelled.
-/

/-- Split on a delimiter character, keeping empty parts, as Python
`str.split(delim)` (never returns the empty list). -/
def splitOnChar (c : Char) : Str → List Str
  | [] => [[]]
  | x :: xs =>
      if x = c then [] :: splitOnChar c xs
      else
        match splitOnChar c xs with
        | [] => [[x]]
        | p :: ps => (x :: p) :: ps

/-- First-match lookup in an insertion-ordered dict (Python dict keys are
unique, so first match is the match). -/
def dictGet (xs : List (Str × Value)) (k : Str) : Option Value :=
  (xs.find? (fun kv => kv.1 = k)).map (·.2)

/-- Python `int(s)`: optional sign followed by one or more digits. -/
def intParse (s : Str) : Option Int :=
  let core : Str → Option Int := fun t =>
    if t ≠ [] ∧ t.all (·.isDigit) then
      some (t.foldl (fun acc c => acc * 10 + (c.toNat - 48)) 0 : ℕ)
    else none
  match s with
  | '-' :: t => (core t).map (fun n => -n)
  | '+' :: t => core t
  | t => core t

/-- Python list indexing with negative indices; `none` is the `IndexError`
branch. -/
def pyIndex (xs : List Value) (i : Int) : Option Value :=
  if i < 0 then
    let j := i + xs.length
    if j < 0 then none else xs.get? j.toNat
  else xs.get? i.toNat

/-- Scan a list for the first embedded dict carrying the key. -/
def embeddedLookup (xs : List Value) (k : Str) : Option Value :=
  match xs with
  | [] => none
  | .dict d :: rest =>
      match dictGet d k with
      | some v => some v
      | none => embeddedLookup rest k
  | _ :: rest => embeddedLookup rest k

/-- One step of `traverse_dict_and_list`. -/
def traverseStep (ptr : Value) (seg : Str) : Option Value :=
  match ptr with
  | .list xs =>
      match intParse seg with
      | some i => pyIndex xs i
      | none => embeddedLookup xs seg
  | .dict xs => dictGet xs seg
  | _ => none

/-- `traverse_dict_and_list(data, key, default)` over the colon-split path;
`none` is the default (the callers pass the `KeyError` sentinel). -/
def traverseData (data : Value) (key : Str) : Option Value :=
  (splitOnChar ':' key).foldlM traverseStep data

example : traverseData (.dict [(str "a", .dict [(str "b", .int 1)])]) (str "a:b") =
    some (.int 1) := by decide

example : traverseData (.dict [(str "a", .dict [(str "b", .int 1)])]) (str "a:c") = none := by
  decide

example : traverseData (.dict [(str "a", .dict [(str "c", .null)])]) (str "a:c") =
    some .null := by decide

/-!
## Template projector (`Projector` / `JsonFormatter`, `influxdb2util.py`
lines 155–288)

Python exceptions inside the projector split into `KeyError` (which
`Projector.__call__` swallows between the raw-value attempt and the format
attempt) and everything else (which the outer `except Exception` turns into
a `None` output value).
-/

inductive PyErr
  | keyError
  | other
deriving DecidableEq

/-- Tokens of a parsed format string: literal runs and `\x7b...\x7d`
fields with an optional `!` conversion character. -/
inductive FmtTok
  | lit (s : Str)
  | field (name : Str) (conv : Option Char)
deriving DecidableEq

/-- Parse the text between the braces of one replacement field:
`field_name[!conversion][:format_spec]`, with `JsonFormatter.parse`
re-joining a non-empty format spec into the field name with `:` (so the
colon path syntax survives the format machinery). -/
def mkField (content : Str) : Except Unit FmtTok :=
  let pre := content.takeWhile (fun c => c != '!' && c != ':')
  match content.drop pre.length with
  | [] => .ok (.field content none)
  | ':' :: spec => if spec = [] then .ok (.field pre none) else .ok (.field content none)
  | '!' :: [] => .error ()
  | '!' :: c :: [] => .ok (.field pre (some c))
  | '!' :: c :: ':' :: spec =>
      if spec = [] then .ok (.field pre (some c))
      else .ok (.field (pre ++ ':' :: spec) (some c))
  | _ => .error ()

/-- Format-string scanner, as `string.Formatter.parse`: `\x7b\x7b` and
`\x7d\x7d` are brace escapes, a lone `\x7d` or an unterminated field is a
`ValueError`, and a nested `\x7b` inside a field (Python's nested
format-spec braces) is out of the modelled fragment and also errors.  The
fuel argument (one unit per consumed character, `length + 1` is always
enough) only bounds recursion. -/
def parseFmtAux : ℕ → Str → Except Unit (List FmtTok)
  | 0, _ => .error ()
  | _ + 1, [] => .ok []
  | fuel + 1, s =>
      let lit := s.takeWhile (fun c => c != lbrace && c != rbrace)
      match s.drop lit.length with
      | [] => .ok [.lit lit]
      | c :: rest =>
          if c = rbrace then
            match rest with
            | c2 :: rest2 =>
                if c2 = rbrace then (parseFmtAux fuel rest2).map (fun ts => .lit (lit ++ [rbrace]) :: ts)
                else .error ()
            | [] => .error ()
          else
            match rest with
            | [] => .error ()
            | c2 :: rest2 =>
                if c2 = lbrace then
                  (parseFmtAux fuel rest2).map (fun ts => .lit (lit ++ [lbrace]) :: ts)
                else
                  let fld := rest.takeWhile (fun c => c != rbrace && c != lbrace)
                  match rest.drop fld.length with
                  | a :: after =>
                      if a = rbrace then
                        match mkField fld with
                        | .ok tok => (parseFmtAux fuel after).map (fun ts => .lit lit :: tok :: ts)
                        | .error _ => .error ()
                      else .error ()
                  | [] => .error ()

def parseFmt (s : Str) : Except Unit (List FmtTok) := parseFmtAux (s.length + 1) s

/-- Accessors a format field name can chain after its base name:
`.attr` attribute access and `[key]` item access
(`string.Formatter.get_field`). -/
inductive FieldAccess
  | attr (name : Str)
  | item (key : Str)
deriving DecidableEq

def parseAccessorsAux : ℕ → Str → Except Unit (List FieldAccess)
  | 0, _ => .error ()
  | _ + 1, [] => .ok []
  | fuel + 1, c :: rest =>
      if c = '.' then
        let nm := rest.takeWhile (fun x => x != '.' && x != '[')
        (parseAccessorsAux fuel (rest.drop nm.length)).map (.attr nm :: ·)
      else if c = '[' then
        let key := rest.takeWhile (fun x => x != ']')
        match rest.drop key.length with
        | ']' :: rest2 => (parseAccessorsAux fuel rest2).map (.item key :: ·)
        | _ => .error ()
      else .error ()

/-- Split a field name into its base name and accessor chain; a missing
closing `]` is the `ValueError` branch. -/
def splitFieldName (name : Str) : Except Unit (Str × List FieldAccess) :=
  let base := name.takeWhile (fun x => x != '.' && x != '[')
  (parseAccessorsAux (name.length + 1) (name.drop base.length)).map (fun as => (base, as))

/-- Numeric value of an all-digits string. -/
def digitsToNat (s : Str) : ℕ := s.foldl (fun acc c => acc * 10 + (c.toNat - 48)) 0

/-- Apply one accessor, as `string.Formatter.get_field` does: attribute
access on plain data raises (`none`); an all-digits item key indexes a list;
any other item key looks up a dict key (dict keys are strings in this
model). -/
def applyAccess (v : Value) : FieldAccess → Option Value
  | .attr _ => none
  | .item k =>
      if k ≠ [] ∧ k.all (·.isDigit) then
        match v with
        | .list xs => xs.get? (digitsToNat k)
        | _ => none
      else
        match v with
        | .dict d => dictGet d k
        | _ => none

def applyAccessors (v : Value) : List FieldAccess → Except PyErr Value
  | [] => .ok v
  | a :: rest =>
      match applyAccess v a with
      | some v' => applyAccessors v' rest
      | none => .error .other

/-- `Projector.__init__`: named computed accessors (which may raise) over
one data record. -/
structure Projector where
  mappings : List (Str × (Value → Except PyErr Value))
  data : Value

/-- `Projector.__getitem__` (lines 183–193): a mapping key runs its function
on the data and coerces the result; otherwise the key is traversed in the
data, with the `KeyError` sentinel turning into a raised `KeyError`. -/
def Projector.getItem (p : Projector) (key : Str) : Except PyErr Value :=
  match p.mappings.find? (fun kv => kv.1 = key) with
  | some kf => (kf.2 p.data).map ensureType
  | none =>
      match traverseData p.data key with
      | some v => .ok v
      | none => .error .keyError

/-- `string.Formatter.convert_field`: `!s`, `!r`, `!a` conversions, anything
else a `ValueError`. -/
def convertField (v : Value) : Option Char → Except PyErr Value
  | none => .ok v
  | some c =>
      if c = 's' then .ok (.str (pyStr v))
      else if c = 'r' ∨ c = 'a' then .ok (.str (pyRepr v))
      else .error .other

/-- `JsonFormatter.format_field` with the always-empty format spec (the
monkeypatched `parse` folds specs back into field names): scalars via
`format(v, "") == str(v)`, anything else JSON-dumped. -/
def formatField (v : Value) : Str :=
  match v with
  | .int _ | .bool _ | .str _ => pyStr v
  | .null | .list _ | .dict _ => pyJson v

/-- Render one token of `Formatter.vformat`: resolve the base name through
the projector (auto-numbering/positional bases hit the empty `args` tuple
and raise `IndexError`), chain accessors, convert, format. -/
def vformatTok (p : Projector) : FmtTok → Except PyErr Str
  | .lit s => .ok s
  | .field name conv =>
      match splitFieldName name with
      | .error _ => .error .other
      | .ok (base, accs) =>
          if base.all (·.isDigit) then .error .other
          else do
            let v0 ← p.getItem base
            let v1 ← applyAccessors v0 accs
            let v2 ← convertField v1 conv
            .ok (formatField v2)

/-- `JsonFormatter.vformat` over the projector as `kwargs`. -/
def vformat (p : Projector) (s : Str) : Except PyErr Str :=
  match parseFmt s with
  | .error _ => .error .other
  | .ok toks => (toks.mapM (vformatTok p)).map List.flatten

/-- One output key of `Projector.__call__` (lines 223–248): no brace means a
literal constant; otherwise first try the whole expression minus its first
and last character as one raw reference (type-preserving path), falling back
on `KeyError` — and only on `KeyError` — to the format string; any failure
yields `none` (Python `None`). -/
def renderExpr (p : Projector) (val : Str) : Option Value :=
  if lbrace ∈ val then
    match p.getItem (val.drop 1).dropLast with
    | .ok v => some (ensureType v)
    | .error .keyError =>
        match vformat p val with
        | .ok s => some (.str s)
        | .error _ => none
    | .error .other => none
  else some (.str val)

/-- `Projector.__call__` over a whole template structure: the rendered
entries in template order paired with the warnings, each warning carrying
the output key and its template string as in the
`"Failed rendering point template for {key}: '{val}'"` log line. -/
def projCall (p : Projector) (tmpl : List (Str × Str)) :
    List (Str × Option Value) × List (Str × Str) :=
  match tmpl with
  | [] => ([], [])
  | (k, v) :: rest =>
      let r := renderExpr p v
      let (outs, warns) := projCall p rest
      ((k, r) :: outs, (if r = none then [(k, v)] else []) ++ warns)

/-- A single brace-delimited reference expression. -/
def braced (s : Str) : Str := lbrace :: s ++ [rbrace]

/-!
## Task DSL codec (`Task` / `FluxQuery`, `influxdb2util.py` lines 13–79)

String plumbing for the codec: Python `str.splitlines` (line boundaries
`\n`, `\r`, `\r\n`, `\v`, `\f`, `\x1c`-`\x1e`, `\x85`, `\u2028`,
`\u2029`), `"\n".join`, `str.strip` (Python whitespace), and
`str.startswith`.
-/

/-- The characters Python `str.isspace` accepts, which are exactly the
characters `str.strip()` removes. -/
def wsChars : Str :=
  [' ', '\t', '\n', '\r', '\x0b', '\x0c',
   '\x1c', '\x1d', '\x1e', '\x1f', '\x85', '\xa0', '\u1680',
   '\u2028', '\u2029', '\u202f', '\u205f', '\u3000']

/-- Python whitespace: `str.strip()` removes it from both ends. -/
def wsChar (c : Char) : Bool :=
  decide (c ∈ wsChars) || (0x2000 ≤ c.toNat && c.toNat ≤ 0x200a)

/-- Python `str.strip()`. -/
def pyStrip (s : Str) : Str := ((s.dropWhile wsChar).reverse.dropWhile wsChar).reverse

theorem dropWhile_length_le (p : Char → Bool) (s : Str) :
    (s.dropWhile p).length ≤ s.length := by
  induction s with
  | nil => simp
  | cons c cs ih =>
      rw [List.dropWhile_cons]
      split
      · exact Nat.le_succ_of_le ih
      · simp

theorem takeWhile_length_le (p : Char → Bool) (s : Str) :
    (s.takeWhile p).length ≤ s.length := by
  induction s with
  | nil => simp
  | cons c cs ih =>
      rw [List.takeWhile_cons]
      split
      · simpa using ih
      · simp

/-- `\n`-terminator splitting: the accumulator holds the current line
reversed; a trailing newline does not open an empty final line. -/
def splitlinesAux (cur : Str) : Str → List Str
  | [] => [cur.reverse]
  | [c] => if c = '\n' then [cur.reverse] else [(c :: cur).reverse]
  | c :: c2 :: cs =>
      if c = '\n' then cur.reverse :: splitlinesAux [] (c2 :: cs)
      else splitlinesAux (c :: cur) (c2 :: cs)

/-- Splitting on `\n` terminators alone: the second stage of
`str.splitlines()` (after line-break normalisation), and the line
segmentation that `re.MULTILINE` anchors and `"\n".join` see.  The empty
string has no lines. -/
def splitNl : Str → List Str
  | [] => []
  | s => splitlinesAux [] s

/-- The characters Python `str.splitlines()` breaks lines at (together with
the two-character sequence `\r\n`, which counts as a single break). -/
def lineBreakChars : Str :=
  ['\n', '\r', '\x0b', '\x0c', '\x1c', '\x1d', '\x1e', '\x85', '\u2028', '\u2029']

def isLineBreak (c : Char) : Bool := decide (c ∈ lineBreakChars)

/-- Normalise every Python line break to `\n`, merging `\r\n` into one
break, so that `str.splitlines()` factors as `splitNl` after this pass. -/
def nlNormalize : Str → Str
  | [] => []
  | [c] => if isLineBreak c then ['\n'] else [c]
  | c :: c2 :: cs =>
      if c = '\r' ∧ c2 = '\n' then '\n' :: nlNormalize cs
      else if isLineBreak c then '\n' :: nlNormalize (c2 :: cs)
      else c :: nlNormalize (c2 :: cs)

/-- Python `str.splitlines()`: break at every line-boundary character
(`\n`, `\r`, `\r\n`, `\v`, `\f`, `\x1c`-`\x1e`, `\x85`, `\u2028`,
`\u2029`), a trailing break opening no empty final line. -/
def splitlines (s : Str) : List Str := splitNl (nlNormalize s)

/-- Python `"\n".join`. -/
def intercalateNL : List Str → Str
  | [] => []
  | [l] => l
  | l :: ls => l ++ '\n' :: intercalateNL ls

/-- The literal prefix of an import line, `import "`. -/
def impPrefix : Str := str "import " ++ [dquote]

/-- A line fully matching the pattern for import lines (anchored
`import "` + anything + `"`): the findall per-line semantics of
`FluxQuery.from_string`. -/
def isImpLine (l : Str) : Bool :=
  impPrefix.isPrefixOf l && l.getLast? == some dquote && decide (9 ≤ l.length)

structure FluxQuery where
  query : Str
  imps : Str
deriving DecidableEq

/-- `FluxQuery.__init__` strips both parts. -/
def FluxQuery.make (q imp : Str) : FluxQuery := ⟨pyStrip q, pyStrip imp⟩

/-- `FluxQuery.from_string`: hoist the lines matching the anchored import
pattern — `re.findall` with `re.MULTILINE`, whose `^`/`$` anchors sit at
`\n` boundaries only, hence `splitNl` — and keep the `str.splitlines()`
lines not equal to some hoisted import line. -/
def fluxFromString (q : Str) : FluxQuery :=
  let imps := (splitNl q).filter isImpLine
  FluxQuery.make (intercalateNL ((splitlines q).filter (fun l => l ∉ imps)))
    (intercalateNL imps)

/-- `FluxQuery.__str__`. -/
def fluxToString (fq : FluxQuery) : Str :=
  (if fq.imps ≠ [] then fq.imps ++ str "\n\n" else []) ++ fq.query ++ ['\n']

structure FluxTask where
  name : Str
  query : Str
  every : Option Str
  cron : Option Str
  offset : Option Str
deriving DecidableEq

/-- `Task.__init__` with a string query: the stored query is the
stringification of the parsed `FluxQuery`. -/
def FluxTask.make (name query : Str) (every cron offset : Option Str) : FluxTask :=
  ⟨name, fluxToString (fluxFromString query), every, cron, offset⟩

/-- One `key: value` options entry, with `name` and `cron` values quoted. -/
def optEntry (k v : Str) (quoted : Bool) : Str :=
  k ++ str ": " ++ (if quoted then dquote :: v ++ [dquote] else v)

/-- The `task_opts` dict of `Task.to_flux` in insertion order. -/
def taskOptsList (t : FluxTask) : List (Str × Str × Bool) :=
  [(str "name", t.name, true)] ++
    (match t.every with | some e => [(str "every", e, false)] | none => []) ++
    (match t.cron with | some c => [(str "cron", c, true)] | none => []) ++
    (match t.offset with | some o => [(str "offset", o, false)] | none => [])

/-- `", ".join` over rendered options entries. -/
def renderOpts : List (Str × Str × Bool) → Str
  | [] => []
  | [kvq] => optEntry kvq.1 kvq.2.1 kvq.2.2
  | kvq :: rest => optEntry kvq.1 kvq.2.1 kvq.2.2 ++ str ", " ++ renderOpts rest

/-- The literal `option task = \x7b`. -/
def optTaskPrefix : Str := str "option task = " ++ [lbrace]

/-- `Task.to_flux`. -/
def toFlux (t : FluxTask) : Str :=
  let q := fluxFromString t.query
  (if q.imps ≠ [] then q.imps ++ str "\n\n" else []) ++
    optTaskPrefix ++ renderOpts (taskOptsList t) ++ [rbrace] ++ str "\n\n" ++ q.query ++ ['\n']

/-- The lazy `(.*?)\x7d` tail of the options regex at a fixed position:
content up to the first closing brace, failing on a newline first (`.` does
not match newlines). -/
def grabContent : Str → Option Str
  | [] => none
  | c :: cs =>
      if c = rbrace then some []
      else if c = '\n' then none
      else (grabContent cs).map (c :: ·)

/-- `re.findall(r"option task = \x7b(.*?)\x7d", flux)[0]`: leftmost
occurrence of the options block, scanning positions left to right. -/
def findOptionBlock : Str → Option Str
  | [] => none
  | s@(_ :: cs) =>
      if optTaskPrefix.isPrefixOf s then
        match grabContent (s.drop optTaskPrefix.length) with
        | some content => some content
        | none => findOptionBlock cs
      else findOptionBlock cs

/-- Python `\w` restricted to ASCII. -/
def isWordChar (c : Char) : Bool := c.isAlphanum || c == '_'

/-- Consume one optional leading double quote: the greedy `"?`. -/
def dropQuote : Str → Str
  | [] => []
  | c :: cs => if c = dquote then cs else c :: cs

theorem dropQuote_length_le (s : Str) : (dropQuote s).length ≤ s.length := by
  cases s with
  | nil => simp [dropQuote]
  | cons c cs =>
      rw [dropQuote]
      split
      · simp
      · simp

/-- One attempt of the options-pair regex `(\w+): "?([^,"]+)"?` at the
current position: returns key, value and the remaining input. -/
def matchPairAt (s : Str) : Option (Str × Str × Str) :=
  let key := s.takeWhile isWordChar
  if key = [] then none
  else
    match s.drop key.length with
    | ':' :: ' ' :: rest1 =>
        let rest2 := dropQuote rest1
        let val := rest2.takeWhile (fun c => c != ',' && c != dquote)
        if val = [] then none
        else some (key, val, dropQuote (rest2.drop val.length))
    | _ => none

theorem matchPairAt_rest_lt (s : Str) (kvr : Str × Str × Str)
    (h : matchPairAt s = some kvr) : kvr.2.2.length < s.length := by
  rw [matchPairAt] at h
  by_cases hk : s.takeWhile isWordChar = []
  · rw [if_pos hk] at h
    exact absurd h (by simp)
  · rw [if_neg hk] at h
    split at h
    · rename_i rest1 heq
      dsimp only at h
      split at h
      · exact absurd h (by simp)
      · rw [Option.some.injEq] at h
        have hkey : 1 ≤ (s.takeWhile isWordChar).length := List.length_pos.mpr hk
        have htw : (s.takeWhile isWordChar).length ≤ s.length := takeWhile_length_le _ s
        have hdl : (s.drop (s.takeWhile isWordChar).length).length =
            s.length - (s.takeWhile isWordChar).length := by simp
        rw [heq] at hdl
        simp only [List.length_cons] at hdl
        have hr2 : (dropQuote rest1).length ≤ rest1.length := dropQuote_length_le rest1
        have hr4 : kvr.2.2.length ≤
            ((dropQuote rest1).drop ((dropQuote rest1).takeWhile
              (fun c => c != ',' && c != dquote)).length).length := by
          rw [← h]
          exact dropQuote_length_le _
        have hr5 : ((dropQuote rest1).drop ((dropQuote rest1).takeWhile
            (fun c => c != ',' && c != dquote)).length).length ≤
            (dropQuote rest1).length := by simp
        omega
    · exact absurd h (by simp)

/-- `re.findall` over the options content: non-overlapping matches scanning
left to right, advancing one character past failing positions.  The fuel
(one unit per consumed character; `length + 1` always suffices because a
match consumes at least one character) only bounds recursion. -/
def scanPairsAux : ℕ → Str → List (Str × Str)
  | 0, _ => []
  | _ + 1, [] => []
  | fuel + 1, c :: cs =>
      (matchPairAt (c :: cs)).elim (scanPairsAux fuel cs)
        (fun kvr => (kvr.1, kvr.2.1) :: scanPairsAux fuel kvr.2.2)

def scanPairs (s : Str) : List (Str × Str) := scanPairsAux (s.length + 1) s

theorem scanPairsAux_congr : ∀ (f1 f2 : ℕ) (s : Str), s.length < f1 → s.length < f2 →
    scanPairsAux f1 s = scanPairsAux f2 s := by
  intro f1
  induction f1 with
  | zero => intro f2 s h1; omega
  | succ f1 ih =>
      intro f2 s h1 h2
      cases f2 with
      | zero => omega
      | succ f2 =>
          cases s with
          | nil => rfl
          | cons c cs =>
              simp only [scanPairsAux]
              simp only [List.length_cons] at h1 h2
              cases hm : matchPairAt (c :: cs) with
              | some kvr =>
                  have hlt := matchPairAt_rest_lt _ kvr hm
                  simp only [List.length_cons] at hlt
                  simp only [hm, Option.elim]
                  rw [ih f2 kvr.2.2 (by omega) (by omega)]
              | none =>
                  simp only [hm, Option.elim]
                  rw [ih f2 cs (by omega) (by omega)]

theorem scanPairs_matched (s : Str) (kvr : Str × Str × Str)
    (h : matchPairAt s = some kvr) :
    scanPairs s = (kvr.1, kvr.2.1) :: scanPairs kvr.2.2 := by
  cases s with
  | nil => simp [matchPairAt] at h
  | cons c cs =>
      have hlt := matchPairAt_rest_lt _ kvr h
      simp only [List.length_cons] at hlt
      rw [scanPairs, scanPairs]
      simp only [List.length_cons, scanPairsAux, h, Option.elim]
      rw [scanPairsAux_congr (cs.length + 1) (kvr.2.2.length + 1) kvr.2.2 (by omega)
        (by omega)]

theorem scanPairs_skip (c : Char) (cs : Str) (h : matchPairAt (c :: cs) = none) :
    scanPairs (c :: cs) = scanPairs cs := by
  rw [scanPairs, scanPairs]
  simp only [List.length_cons, scanPairsAux, h, Option.elim]

theorem scanPairs_nil : scanPairs [] = [] := rfl

/-- Last-wins lookup: `dict(pairs)[k]` with later duplicates overriding. -/
def pairsLookup (ps : List (Str × Str)) (k : Str) : Option Str :=
  (ps.reverse.find? (fun kv => kv.1 = k)).map (·.2)

def allowedKeys : List Str := [str "name", str "every", str "cron", str "offset"]

/-- `Task.from_flux`: extract the first options block (failing with
`CommandExecutionError` when absent), recover the query by dropping the
lines that start an options block, parse the `key: value` pairs, and call
the constructor with them as keyword arguments (unknown keys, a duplicate
`query`, or a missing `name` raise `TypeError`). -/
def fromFlux (flux : Str) : Except Str FluxTask :=
  match findOptionBlock flux with
  | none => .error (str "Could not parse task options")
  | some options =>
      let query := pyStrip (intercalateNL ((splitlines flux).filter
        (fun l => ¬ optTaskPrefix.isPrefixOf l)))
      let parsed := scanPairs options
      if parsed.all (fun kv => kv.1 ∈ allowedKeys) then
        match pairsLookup parsed (str "name") with
        | some n =>
            .ok (FluxTask.make n query (pairsLookup parsed (str "every"))
              (pairsLookup parsed (str "cron")) (pairsLookup parsed (str "offset")))
        | none => .error (str "TypeError: missing argument name")
      else .error (str "TypeError: unexpected keyword argument")

def pTest : Projector :=
  ⟨[], .dict [(str "jid", .int 5), (str "data", .dict [(str "id", .str (str "m1"))])]⟩

example : renderExpr pTest (braced (str "jid")) = some (.int 5) := by decide

example : renderExpr pTest (str "x-" ++ braced (str "jid")) = some (.str (str "x-5")) := by
  decide

example : renderExpr pTest (braced (str "data:id")) = some (.str (str "m1")) := by decide

example : renderExpr pTest (braced (str "missing")) = none := by decide

example : renderExpr pTest (str "plain") = some (.str (str "plain")) := by decide

/-- The composite template expression `\x7ba\x7d \x7bb\x7d`: two references
joined by literal text. -/
def compositeVal : Str := braced (str "a" ++ [rbrace, ' ', lbrace] ++ str "b")

/-- A data context whose dict happens to carry the key `a\x7d \x7bb` — the
composite expression stripped of its first and last characters. -/
def collisionProj : Projector :=
  ⟨[], .dict [(str "a" ++ [rbrace, ' ', lbrace] ++ str "b", .int 42)]⟩

/-- C5 counterexample: a composite expression (its inner text still contains
braces, so it is not a single brace-delimited reference) rendered against a
context whose dict carries the expression minus its outer characters as a
literal key yields that key's raw integer value, not a string:
`Projector.__call__` tries `self[val[1:-1]]` before formatting for every
expression containing a brace, not only for single-reference expressions. -/
theorem projector_composite_raw_collision :
    lbrace ∈ (compositeVal.drop 1).dropLast ∧
    renderExpr collisionProj compositeVal = some (.int 42) ∧
    ∀ s : Str, Value.int 42 ≠ .str s := by
  refine ⟨by decide, by decide, fun s h => by cases h⟩

/-- C5 (amended): an expression with no brace is a literal string constant;
an expression that is exactly one brace-delimited reference resolves the
reference and preserves int/bool/string values (JSON-encoding `None`, lists
and dicts); and a composite expression yields a string (or `None` on
failure) provided the expression stripped of its first and last characters
does not itself resolve as a reference — the code tries that raw lookup
first, so a colliding context key returns the raw value instead. -/
theorem renderExpr_type_discipline :
    (∀ (p : Projector) (val : Str), lbrace ∉ val → renderExpr p val = some (.str val)) ∧
    (∀ (p : Projector) (r : Str) (v : Value), p.getItem r = .ok v →
        renderExpr p (braced r) = some (ensureType v)) ∧
    (∀ n : Int, ensureType (.int n) = .int n) ∧
    (∀ b : Bool, ensureType (.bool b) = .bool b) ∧
    (∀ s : Str, ensureType (.str s) = .str s) ∧
    ensureType .null = .str (pyJson .null) ∧
    (∀ xs, ensureType (.list xs) = .str (pyJson (.list xs))) ∧
    (∀ xs, ensureType (.dict xs) = .str (pyJson (.dict xs))) ∧
    (∀ (p : Projector) (val : Str), lbrace ∈ val →
        p.getItem ((val.drop 1).dropLast) = .error .keyError →
        renderExpr p val = none ∨ ∃ s, renderExpr p val = some (.str s)) := by
  refine ⟨?_, ?_, fun _ => rfl, fun _ => rfl, fun _ => rfl, rfl, fun _ => rfl, fun _ => rfl,
    ?_⟩
  · intro p val h
    simp [renderExpr, h]
  · intro p r v h
    have hmem : lbrace ∈ braced r := by simp [braced]
    have hinner : ((braced r).drop 1).dropLast = r := by
      simp [braced]
    rw [renderExpr, if_pos hmem, hinner, h]
  · intro p val hmem herr
    rw [renderExpr, if_pos hmem, herr]
    cases h : vformat p val with
    | ok s => exact Or.inr ⟨s, rfl⟩
    | error e => exact Or.inl rfl

/-!
## Aggregate summarizer (`StateSum`, `influxdb2_return.py` lines 759–854)

One sub-result of a state run: the `result` entry (`True`/`False`/`None`),
the truthiness of `single.get("changes")`, and `single.get("duration", 0)`.
The returner feeds `StateSum` the dict under `ret["return"]`; the model
takes its `.values()` in insertion order.  Durations are exact rationals
(Python float representation artifacts are outside the model), and
`round(x, 2)` is round-half-to-even at two decimals.  The `_sum`
memoization only caches the same pure computation, so the accessors are
modelled as functions of the data.
-/

structure StateSingle where
  result : Option Bool
  changes : Bool
  duration : ℚ

/-- Python `round` to an integer: half-to-even. -/
def roundHalfEven (q : ℚ) : ℤ :=
  if q - Int.floor q < 1 / 2 then Int.floor q
  else if q - Int.floor q > 1 / 2 then Int.floor q + 1
  else if Int.floor q % 2 = 0 then Int.floor q else Int.floor q + 1

/-- Python `round(q, 2)`. -/
def round2 (q : ℚ) : ℚ := (roundHalfEven (q * 100) : ℚ) / 100

/-- The single pass of `StateSum._sum`: `(failed, succeeded, total, changed,
duration)`, where a `False` result counts as failed, anything else
(including the `None` of test runs) as succeeded. -/
def stateSumFold (data : List StateSingle) : ℕ × ℕ × ℕ × ℕ × ℚ :=
  data.foldl
    (fun acc s =>
      (acc.1 + (if s.result = some false then 1 else 0),
       acc.2.1 + (if s.result = some false then 0 else 1),
       acc.2.2.1 + 1,
       acc.2.2.2.1 + (if s.changes then 1 else 0),
       acc.2.2.2.2 + s.duration))
    (0, 0, 0, 0, 0)

def StateSum.sumFailed (d : List StateSingle) : ℕ := (stateSumFold d).1

def StateSum.sumSucceeded (d : List StateSingle) : ℕ := (stateSumFold d).2.1

def StateSum.sumTotal (d : List StateSingle) : ℕ := (stateSumFold d).2.2.1

def StateSum.sumChanged (d : List StateSingle) : ℕ := (stateSumFold d).2.2.2.1

def StateSum.sumDuration (d : List StateSingle) : ℚ := round2 (stateSumFold d).2.2.2.2

/-- `succeeded_pct`: `round(self._succeeded / self._total * 100, 2)`; the
error is Python's `ZeroDivisionError` when the run has no states. -/
def StateSum.succeededPct (d : List StateSingle) : Except Unit ℚ :=
  if StateSum.sumTotal d = 0 then .error ()
  else .ok (round2 ((StateSum.sumSucceeded d : ℚ) / (StateSum.sumTotal d : ℚ) * 100))

/-- `failed_pct`. -/
def StateSum.failedPct (d : List StateSingle) : Except Unit ℚ :=
  if StateSum.sumTotal d = 0 then .error ()
  else .ok (round2 ((StateSum.sumFailed d : ℚ) / (StateSum.sumTotal d : ℚ) * 100))

/-- `changed_pct`. -/
def StateSum.changedPct (d : List StateSingle) : Except Unit ℚ :=
  if StateSum.sumTotal d = 0 then .error ()
  else .ok (round2 ((StateSum.sumChanged d : ℚ) / (StateSum.sumTotal d : ℚ) * 100))

theorem stateSumFold_spec (data : List StateSingle) (init : ℕ × ℕ × ℕ × ℕ × ℚ) :
    data.foldl
        (fun acc s =>
          (acc.1 + (if s.result = some false then 1 else 0),
           acc.2.1 + (if s.result = some false then 0 else 1),
           acc.2.2.1 + 1,
           acc.2.2.2.1 + (if s.changes then 1 else 0),
           acc.2.2.2.2 + s.duration))
        init =
      (init.1 + (data.filter (fun s => s.result = some false)).length,
       init.2.1 + (data.filter (fun s => ¬ s.result = some false)).length,
       init.2.2.1 + data.length,
       init.2.2.2.1 + (data.filter (·.changes)).length,
       init.2.2.2.2 + (data.map (·.duration)).sum) := by
  induction data generalizing init with
  | nil => simp
  | cons s rest ih =>
      obtain ⟨a, b, c, d, e⟩ := init
      rw [List.foldl_cons, ih]
      by_cases hr : s.result = some false <;> by_cases hc : s.changes = true <;>
        simp [hr, hc, List.filter_cons, add_assoc, add_comm, add_left_comm]

/-- The example run of the spec: four sub-results, three succeeded (one of
them a no-op with a `None` result), one failed. -/
def exampleRun : List StateSingle :=
  [⟨some true, true, 1⟩, ⟨some true, false, 2⟩, ⟨none, false, 0⟩, ⟨some false, false, 3⟩]

/-- C7 counterexample: over the empty collection of sub-results (an empty
state-run return dict) every percentage accessor raises
`ZeroDivisionError` — the code divides by `self._total` without guarding
zero, so the accessors do not return a defined value. -/
theorem stateSum_pct_zero_division :
    StateSum.succeededPct [] = .error () ∧ StateSum.failedPct [] = .error () ∧
      StateSum.changedPct [] = .error () :=
  ⟨rfl, rfl, rfl⟩

/-- C7 (amended): `total` is the number of sub-results; for a non-empty
collection the percentage accessors return `round(count / total * 100, 2)`
and never raise, and the failed/succeeded counts partition the total; for an
empty collection (`total == 0`) all three percentage accessors raise
`ZeroDivisionError` instead of returning a defined value.  The last
conjunct is the spec's concrete example: 3 succeeded (one no-op) and 1
failed give `failed_pct = 25.0`. -/
theorem stateSum_pct_division :
    (∀ d : List StateSingle, StateSum.sumTotal d = d.length) ∧
    (∀ d : List StateSingle,
        StateSum.sumFailed d + StateSum.sumSucceeded d = StateSum.sumTotal d) ∧
    (∀ d : List StateSingle, d ≠ [] →
        StateSum.succeededPct d =
          .ok (round2 ((StateSum.sumSucceeded d : ℚ) / (StateSum.sumTotal d : ℚ) * 100)) ∧
        StateSum.failedPct d =
          .ok (round2 ((StateSum.sumFailed d : ℚ) / (StateSum.sumTotal d : ℚ) * 100)) ∧
        StateSum.changedPct d =
          .ok (round2 ((StateSum.sumChanged d : ℚ) / (StateSum.sumTotal d : ℚ) * 100))) ∧
    (∀ d : List StateSingle, StateSum.sumTotal d = 0 →
        StateSum.succeededPct d = .error () ∧ StateSum.failedPct d = .error () ∧
          StateSum.changedPct d = .error ()) ∧
    StateSum.failedPct exampleRun = .ok 25 := by
  have htotal : ∀ d : List StateSingle, StateSum.sumTotal d = d.length := by
    intro d
    simp [StateSum.sumTotal, stateSumFold, stateSumFold_spec]
  have hex : StateSum.failedPct exampleRun = .ok 25 := by
    have h4 : StateSum.sumTotal exampleRun = 4 := by decide
    have h1 : StateSum.sumFailed exampleRun = 1 := by decide
    rw [StateSum.failedPct, h4, h1]
    norm_num [round2, roundHalfEven]
  refine ⟨htotal, ?_, ?_, ?_, hex⟩
  · intro d
    simp only [StateSum.sumFailed, StateSum.sumSucceeded, StateSum.sumTotal, stateSumFold,
      stateSumFold_spec]
    simp only [zero_add, decide_not]
    exact (@List.length_eq_length_filter_add StateSingle d
      (fun s => decide (s.result = some false))).symm
  · intro d hd
    have h : StateSum.sumTotal d ≠ 0 := by
      rw [htotal]
      simpa using hd
    exact ⟨by simp [StateSum.succeededPct, h], by simp [StateSum.failedPct, h],
      by simp [StateSum.changedPct, h]⟩
  · intro d hd
    exact ⟨by simp [StateSum.succeededPct, hd], by simp [StateSum.failedPct, hd],
      by simp [StateSum.changedPct, hd]⟩

/-!
## Point templates and the event pipeline
(`returner` lines 528–616, `event_return` lines 618–718)

A configured point format is a dict with optional `measurement`, `tags`,
`fields` and (inside candidate lists) `match` keys; a route payload is
either one such dict or a list of candidates.  `event_return` pops the
`_stamp` key out of the (shared, mutated in place) event data before
rendering, selects a candidate by its `match` predicates, and builds the
record with `fmt.get(..., DEFAULT_EVENT_POINT[...])` fallbacks; tag values
are `str(v) if v is not None else ""` for events and plain `str(v)` for
function returns. -/

structure PointFmt where
  measurement : Option Str
  tags : Option (List (Str × Str))
  fields : Option (List (Str × Str))
  matchPreds : Option (List (Str × Regex))
deriving DecidableEq

/-- The empty dict `\x7b\x7d` that `default_fmt` starts from. -/
def emptyFmt : PointFmt := ⟨none, none, none, none⟩

inductive EventFmt
  | single (f : PointFmt)
  | candidates (fs : List PointFmt)

def defaultEventMeasurement : Str := str "events"

def defaultEventFields : List (Str × Str) := [(str "data", braced (str "data"))]

def defaultEventTags : List (Str × Str) :=
  [(str "tag", braced (str "tag")), (str "event_type", str "unknown")]

def defaultFunctionMeasurement : Str := str "returns"

def defaultFunctionFields : List (Str × Str) :=
  [(str "jid", braced (str "jid")), (str "return", braced (str "ret_str")),
   (str "retcode", braced (str "retcode"))]

def defaultFunctionTags : List (Str × Str) :=
  [(str "fun", braced (str "fun")), (str "minion", braced (str "id")),
   (str "salt_version", braced (str "salt_version"))]

/-- The inner predicate loop of `event_return` (lines 687–694): a missing
path (`KeyError` sentinel) or a failed full match breaks out (candidate
rejected); `re.fullmatch(pattern, key_data)` on a non-string value raises
`TypeError`, which aborts the whole event. -/
def matchPredsEval (ev : Value) : List (Str × Regex) → Except Unit Bool
  | [] => .ok true
  | (key, pattern) :: rest =>
      match traverseData ev key with
      | none => .ok false
      | some (.str s) => if pattern.fullmatch s then matchPredsEval ev rest else .ok false
      | some _ => .error ()

/-- The candidate loop (lines 681–699): a candidate without `match` becomes
the running default and evaluation continues; the first fully matching
predicated candidate wins; when the list is exhausted the running default
(initially the empty dict) is used. -/
def selectFmt (ev : Value) : List PointFmt → PointFmt → Except Unit PointFmt
  | [], dflt => .ok dflt
  | c :: cs, dflt =>
      match c.matchPreds with
      | none => selectFmt ev cs c
      | some preds =>
          match matchPredsEval ev preds with
          | .error e => .error e
          | .ok true => .ok c
          | .ok false => selectFmt ev cs dflt

def selectTemplate (cands : List PointFmt) (ev : Value) : Except Unit PointFmt :=
  selectFmt ev cands emptyFmt

inductive Timestamp
  | utcnow
  | fromIso (s : Str)
deriving DecidableEq

structure OutRecord where
  measurement : Str
  tags : List (Str × Str)
  fields : List (Str × Option Value)
  time : Timestamp
deriving DecidableEq

/-- Replace the value stored under an existing dict key in place. -/
def dictSet (xs : List (Str × Value)) (k : Str) (v : Value) : List (Str × Value) :=
  xs.map (fun kv => if kv.1 = k then (kv.1, v) else kv)

/-- `dict.pop(k)`: drop the key, keeping the other entries in order. -/
def dictRemove (xs : List (Str × Value)) (k : Str) : List (Str × Value) :=
  xs.filter (fun kv => ¬ kv.1 = k)

/-- Event tag stringification (lines 705–710): `str(v) if v is not None
else ""`. -/
def eventTagStr : Option Value → Str
  | none => []
  | some v => pyStr v

/-- Function-return tag stringification (lines 602–605): plain `str(v)`,
so a `None` tag value becomes the four-character string `None`. -/
def returnerTagStr : Option Value → Str
  | none => pyStr .null
  | some v => pyStr v

/-- The record built for one event (lines 700–713). -/
def eventRecord (p : Projector) (fmt : PointFmt) (ts : Timestamp) : OutRecord where
  measurement := fmt.measurement.getD defaultEventMeasurement
  tags :=
    (projCall p (fmt.tags.getD defaultEventTags)).1.map (fun kv => (kv.1, eventTagStr kv.2))
  fields := (projCall p (fmt.fields.getD defaultEventFields)).1
  time := ts

/-- The record built for one function return (lines 599–608). -/
def returnerRecord (p : Projector) (fmt : PointFmt) : OutRecord where
  measurement := fmt.measurement.getD defaultFunctionMeasurement
  tags :=
    (projCall p (fmt.tags.getD defaultFunctionTags)).1.map
      (fun kv => (kv.1, returnerTagStr kv.2))
  fields := (projCall p (fmt.fields.getD defaultFunctionFields)).1
  time := .utcnow

/-- Lines 673-676: `datetime.fromisoformat(event["data"].pop("_stamp"))`
with `except KeyError` falling back to `utcnow`.  A missing `data` key or a
missing `_stamp` key raises `KeyError` (caught); a non-dict `data` or a
non-string stamp raises `AttributeError`/`TypeError`, which the `except
KeyError` does not catch, so the event is aborted.  `datetime.fromisoformat`
itself is standard-library code outside this repository; it is modelled by
the `isoValid` parameter: it succeeds exactly on well-formed ISO strings
and raises `ValueError` on any other string, which the `except KeyError`
also does not catch, so a malformed string stamp aborts the event as well.
The pop mutates the dict the projector will render from. -/
def popStamp (isoValid : Str → Bool) (event : Value) : Except PyErr (Timestamp × Value) :=
  match event with
  | .dict entries =>
      match dictGet entries (str "data") with
      | none => .ok (.utcnow, event)
      | some (.dict dentries) =>
          match dictGet dentries (str "_stamp") with
          | none => .ok (.utcnow, event)
          | some (.str s) =>
              if isoValid s then
                .ok (.fromIso s,
                  .dict (dictSet entries (str "data")
                    (.dict (dictRemove dentries (str "_stamp")))))
              else .error .other
          | some _ => .error .other
      | some _ => .error .other
  | _ => .error .other

/-- Route-payload dispatch: a single template is used as is, a candidate
list goes through selection (whose `TypeError` aborts the event). -/
def fmtOf (fe : EventFmt) (ev : Value) : Except PyErr PointFmt :=
  match fe with
  | .single f => .ok f
  | .candidates fs =>
      match selectTemplate fs ev with
      | .ok f => .ok f
      | .error _ => .error .other

/-- The per-event body of `event_return` after the tag-route lookup: pop the
stamp, select the template against the mutated event, render the record
from the mutated event; any uncaught exception on the way (modelled as
`.error`) makes the per-event `except Exception` skip the event without a
record. -/
def processEvent (isoValid : Str → Bool)
    (maps : List (Str × (Value → Except PyErr Value))) (fe : EventFmt)
    (event : Value) : Except PyErr OutRecord := do
  let tsEv ← popStamp isoValid event
  let fmt ← fmtOf fe tsEv.2
  pure (eventRecord ⟨maps, tsEv.2⟩ fmt tsEv.1)

/-- Modelled from the spec (§4.4), for comparison with the code: a candidate
matches when every one of its predicates' target paths resolves to a value
whose full string form matches the required pattern. -/
def specPredHolds (ev : Value) (preds : List (Str × Regex)) : Bool :=
  preds.all (fun kp =>
    match traverseData ev kp.1 with
    | some v => kp.2.fullmatch (pyStr v)
    | none => false)

/-- Modelled from the spec (§4.4): the first matching predicated candidate
in list order, else the candidate lacking a match clause (the default),
tried last regardless of its position. -/
def specSelect (cands : List PointFmt) (ev : Value) : Option PointFmt :=
  match cands.find? (fun c =>
      match c.matchPreds with
      | some preds => specPredHolds ev preds
      | none => false) with
  | some c => some c
  | none => cands.find? (fun c => c.matchPreds = none)

/-- Every predicate path of the list that resolves at all resolves to a
string (so `re.fullmatch` receives what it expects). -/
def predValuesAreStrings (ev : Value) (preds : List (Str × Regex)) : Bool :=
  preds.all (fun kp =>
    match traverseData ev kp.1 with
    | some (.str _) => true
    | none => true
    | some _ => false)

def candsAreStringDisciplined (ev : Value) (cands : List PointFmt) : Bool :=
  cands.all (fun c =>
    match c.matchPreds with
    | some preds => predValuesAreStrings ev preds
    | none => true)

theorem matchPredsEval_of_strings (ev : Value) (preds : List (Str × Regex))
    (h : predValuesAreStrings ev preds = true) :
    matchPredsEval ev preds = .ok (specPredHolds ev preds) := by
  induction preds with
  | nil => rfl
  | cons kp rest ih =>
      obtain ⟨key, pattern⟩ := kp
      simp only [predValuesAreStrings, List.all_cons, Bool.and_eq_true] at h
      obtain ⟨h1, h2⟩ := h
      have ih' := ih h2
      rw [matchPredsEval, specPredHolds, List.all_cons]
      cases htr : traverseData ev key with
      | none => simp [htr]
      | some v =>
          cases v with
          | str s =>
              by_cases hm : pattern.fullmatch s = true
              · simp [hm, ih', pyStr, specPredHolds]
              · simp only [Bool.not_eq_true] at hm
                simp [hm, pyStr]
          | null => simp [htr] at h1
          | bool b => simp [htr] at h1
          | int n => simp [htr] at h1
          | list xs => simp [htr] at h1
          | dict xs => simp [htr] at h1

theorem selectFmt_spec_general (ev : Value) (cands : List PointFmt)
    (hdef : (cands.filter (fun c => c.matchPreds = none)).length ≤ 1)
    (hstr : candsAreStringDisciplined ev cands = true) :
    ∀ dflt, selectFmt ev cands dflt =
      .ok (match cands.find? (fun c =>
              match c.matchPreds with
              | some preds => specPredHolds ev preds
              | none => false) with
           | some c => c
           | none =>
              match cands.find? (fun c => c.matchPreds = none) with
              | some c => c
              | none => dflt) := by
  induction cands with
  | nil => intro dflt; rfl
  | cons c cs ih =>
      intro dflt
      simp only [candsAreStringDisciplined, List.all_cons, Bool.and_eq_true] at hstr
      obtain ⟨hc, hcs⟩ := hstr
      cases hm : c.matchPreds with
      | none =>
          have hfil : (cs.filter (fun x => x.matchPreds = none)).length = 0 := by
            have h' := hdef
            rw [List.filter_cons, if_pos (by simp [hm])] at h'
            simp only [List.length_cons] at h'
            omega
          have hnone : cs.find? (fun x => x.matchPreds = none) = none := by
            rw [List.find?_eq_none]
            intro x hx
            have hnil := List.filter_eq_nil_iff.mp (List.length_eq_zero.mp hfil) x hx
            simpa using hnil
          have ihc := ih (by omega) hcs c
          simp only [selectFmt, hm, ihc]
          rw [List.find?_cons_of_neg _ (by simp [hm]),
            List.find?_cons_of_pos _ (by simp [hm]), hnone]
      | some preds =>
          have heval := matchPredsEval_of_strings ev preds (by simpa [hm] using hc)
          by_cases hhold : specPredHolds ev preds = true
          · simp only [selectFmt, hm, heval, hhold]
            rw [List.find?_cons_of_pos _ (by simp [hm, hhold])]
          · have hdef' : (cs.filter (fun x => x.matchPreds = none)).length ≤ 1 := by
              have h' := hdef
              rw [List.filter_cons, if_neg (by simp [hm])] at h'
              exact h'
            simp only [Bool.not_eq_true] at hhold
            simp only [selectFmt, hm, heval, hhold]
            rw [ih hdef' hcs dflt]
            rw [List.find?_cons_of_neg _ (by simp [hm, hhold]),
              List.find?_cons_of_neg _ (by simp [hm])]

/-- The `my/other/event`-style example data: one predicated candidate
requiring `data:n` to fully match `5`, an event whose `data:n` is the
integer `5`. -/
def candSpecial : PointFmt :=
  ⟨none, some [(str "event_type", str "special")], none,
    some [(str "data:n", Regex.chr '5')]⟩

def evIntN : Value :=
  .dict [(str "tag", .str (str "t")), (str "data", .dict [(str "n", .int 5)])]

/-- C2 counterexample: the predicate path resolves to the integer `5`, whose
full string form fully matches the required pattern `5`, so the claim
selects the candidate — but the code passes the raw value to
`re.fullmatch`, which raises `TypeError` on a non-string, so selection
errors and the whole event is dropped instead. -/
theorem selectTemplate_nonstring_type_error :
    traverseData evIntN (str "data:n") = some (.int 5) ∧
    (Regex.chr '5').fullmatch (pyStr (.int 5)) = true ∧
    selectTemplate [candSpecial] evIntN = .error () ∧
    processEvent (fun _ => true) [] (.candidates [candSpecial]) evIntN = .error .other :=
  ⟨by decide, by decide, by decide, by decide⟩

/-- C2 (amended): for candidate lists with at most one default candidate and
records whose evaluated predicate paths resolve to strings (or are
missing), the code's selection equals the spec's: predicated candidates are
tried in list order, the first whose predicates all fully match is
selected, and the default is selected only after all predicated candidates
failed, regardless of its position (the empty template when no default
exists); a predicate path resolving to a non-string value instead raises
`TypeError` and aborts the event. -/
theorem selectTemplate_spec (cands : List PointFmt) (ev : Value)
    (hdef : (cands.filter (fun c => c.matchPreds = none)).length ≤ 1)
    (hstr : candsAreStringDisciplined ev cands = true) :
    selectTemplate cands ev = .ok ((specSelect cands ev).getD emptyFmt) := by
  rw [selectTemplate, selectFmt_spec_general ev cands hdef hstr emptyFmt, specSelect]
  cases cands.find? (fun c =>
      match c.matchPreds with
      | some preds => specPredHolds ev preds
      | none => false) with
  | some c => rfl
  | none =>
      cases cands.find? (fun c => c.matchPreds = none) with
      | some c => rfl
      | none => rfl

/-- The spec's §8 example: a predicated candidate requiring `type` to match
`x` and a default candidate, in both orders, against records with
`type = x`, `type = y` and no `type` key. -/
def candTypeX : PointFmt :=
  ⟨none, some [(str "k", str "1")], none, some [(str "type", Regex.chr 'x')]⟩

def candDef : PointFmt := ⟨none, some [(str "k", str "2")], none, none⟩

def evTypeX : Value := .dict [(str "type", .str (str "x"))]

def evTypeY : Value := .dict [(str "type", .str (str "y"))]

def evNoType : Value := .dict []

theorem selectTemplate_spec_witness :
    selectTemplate [candTypeX, candDef] evTypeX = .ok candTypeX ∧
    selectTemplate [candTypeX, candDef] evTypeY = .ok candDef ∧
    selectTemplate [candTypeX, candDef] evNoType = .ok candDef ∧
    selectTemplate [candDef, candTypeX] evTypeX = .ok candTypeX :=
  ⟨(selectTemplate_spec [candTypeX, candDef] evTypeX (by decide) (by decide)).trans
      (by decide),
   (selectTemplate_spec [candTypeX, candDef] evTypeY (by decide) (by decide)).trans
      (by decide),
   (selectTemplate_spec [candTypeX, candDef] evNoType (by decide) (by decide)).trans
      (by decide),
   (selectTemplate_spec [candDef, candTypeX] evTypeX (by decide) (by decide)).trans
      (by decide)⟩

theorem selectFmt_all_reject (ev : Value) :
    ∀ cands : List PointFmt,
      cands.all (fun c =>
          match c.matchPreds with
          | some preds => matchPredsEval ev preds = .ok false
          | none => false) = true →
      ∀ dflt, selectFmt ev cands dflt = .ok dflt := by
  intro cands
  induction cands with
  | nil => intro _ dflt; rfl
  | cons c cs ih =>
      intro hno dflt
      simp only [List.all_cons, Bool.and_eq_true] at hno
      obtain ⟨hc, hcs⟩ := hno
      cases hm : c.matchPreds with
      | none => rw [hm] at hc; simp at hc
      | some preds =>
          rw [hm] at hc
          simp only [decide_eq_true_eq] at hc
          simp only [selectFmt, hm, hc]
          exact ih hcs dflt

/-- A candidate list with no default: one predicated candidate whose
predicate requires `data:x` to fully match `a`, and an event whose
`data:x` is `b`. -/
def candNoMatchX : PointFmt :=
  ⟨none, some [(str "event_type", str "special")], none,
    some [(str "data:x", Regex.chr 'a')]⟩

def evXB : Value :=
  .dict [(str "tag", .str (str "t")), (str "data", .dict [(str "x", .str (str "b"))])]

/-- C8 counterexample: no candidate matches and no default exists, yet
selection succeeds with the empty template and the event still produces a
point — built entirely from the global default event point format — instead
of failing with a `NoTemplateSelected` error (no such error exists anywhere
in the code; `default_fmt` starts as the empty dict and `fmt.get(...)`
falls back to `DEFAULT_EVENT_POINT`). -/
theorem selectTemplate_no_default_yields_point :
    selectTemplate [candNoMatchX] evXB = .ok emptyFmt ∧
    processEvent (fun _ => true) [] (.candidates [candNoMatchX]) evXB =
      .ok (OutRecord.mk defaultEventMeasurement
        [(str "tag", str "t"), (str "event_type", str "unknown")]
        [(str "data", some (.str (pyJson (.dict [(str "x", .str (str "b"))]))))]
        .utcnow) :=
  ⟨by decide, by decide⟩

/-- C8 (amended): when every candidate carries a match clause and none
matches the record, selection yields the empty template (no error is
raised), and the point built from the empty template falls back to the
global default event point format for its measurement, tags and fields. -/
theorem selectTemplate_no_default (cands : List PointFmt) (ev : Value)
    (hno : cands.all (fun c =>
        match c.matchPreds with
        | some preds => matchPredsEval ev preds = .ok false
        | none => false) = true) :
    selectTemplate cands ev = .ok emptyFmt ∧
    ∀ (p : Projector) (ts : Timestamp),
      (eventRecord p emptyFmt ts).measurement = defaultEventMeasurement ∧
      (eventRecord p emptyFmt ts).tags =
        (projCall p defaultEventTags).1.map (fun kv => (kv.1, eventTagStr kv.2)) ∧
      (eventRecord p emptyFmt ts).fields = (projCall p defaultEventFields).1 :=
  ⟨selectFmt_all_reject ev cands hno emptyFmt, fun _ _ => ⟨rfl, rfl, rfl⟩⟩

theorem selectTemplate_no_default_witness :
    selectTemplate [candNoMatchX] evXB = .ok emptyFmt :=
  (selectTemplate_no_default [candNoMatchX] evXB (by decide)).1

theorem dictGet_dictSet_self (xs : List (Str × Value)) (k : Str) (v w : Value)
    (h : dictGet xs k = some w) : dictGet (dictSet xs k v) k = some v := by
  induction xs with
  | nil => simp [dictGet] at h
  | cons kv rest ih =>
      obtain ⟨k1, v1⟩ := kv
      by_cases hk : k1 = k
      · subst hk
        rw [dictSet, List.map_cons]
        have hhead : (if (k1, v1).1 = k1 then ((k1, v1).1, v) else (k1, v1)) = (k1, v) := by
          simp
        rw [hhead, dictGet, List.find?_cons_of_pos _ (by simp)]
        rfl
      · have h' : dictGet rest k = some w := by
          rw [dictGet, List.find?_cons_of_neg _ (by simp [hk])] at h
          exact h
        have hhead : (if (k1, v1).1 = k then ((k1, v1).1, v) else (k1, v1)) = (k1, v1) := by
          simp [hk]
        rw [dictSet, List.map_cons, hhead, dictGet, List.find?_cons_of_neg _ (by simp [hk])]
        exact ih h'

theorem dictGet_dictRemove_self (xs : List (Str × Value)) (k : Str) :
    dictGet (dictRemove xs k) k = none := by
  induction xs with
  | nil => rfl
  | cons kv rest ih =>
      obtain ⟨k1, v1⟩ := kv
      by_cases hk : k1 = k
      · simpa [dictRemove, List.filter_cons, hk] using ih
      · rw [dictRemove, List.filter_cons, if_pos (by simp [hk]), dictGet,
          List.find?_cons_of_neg _ (by simp [hk])]
        exact ih

/-- The event after `event["data"].pop("_stamp")` mutated the shared dict. -/
def stripStamp (entries dentries : List (Str × Value)) : Value :=
  .dict (dictSet entries (str "data") (.dict (dictRemove dentries (str "_stamp"))))

theorem traverseData_stripStamp (entries dentries : List (Str × Value))
    (h : dictGet entries (str "data") = some (.dict dentries)) :
    traverseData (stripStamp entries dentries) (str "data:_stamp") = none := by
  have hsplit : splitOnChar ':' (str "data:_stamp") = [str "data", str "_stamp"] := by
    decide
  rw [traverseData, hsplit]
  have h1 : traverseStep (stripStamp entries dentries) (str "data") =
      some (.dict (dictRemove dentries (str "_stamp"))) := by
    simp [traverseStep, stripStamp, dictGet_dictSet_self entries _ _ _ h]
  simp only [List.foldlM, h1]
  simp [traverseStep, dictGet_dictRemove_self]

/-- C10 (amended): for an event whose `data` entry is a mapping, a string
`_stamp` value is popped out of the shared event dict before any rendering,
so no rendered tag or field can observe `data:_stamp`, and is handed to
`datetime.fromisoformat`: a well-formed stamp becomes the ISO timestamp of
the point, while a malformed one raises `ValueError`, which the
`except KeyError` does not catch, so the event is dropped without a record;
without a `_stamp` key the `KeyError` branch uses the current UTC time and
the event is rendered unchanged. -/
theorem event_stamp_handling
    (isoValid : Str → Bool)
    (maps : List (Str × (Value → Except PyErr Value))) (fe : EventFmt)
    (entries dentries : List (Str × Value))
    (hdata : dictGet entries (str "data") = some (.dict dentries)) :
    (∀ s, dictGet dentries (str "_stamp") = some (.str s) → isoValid s = true →
        popStamp isoValid (.dict entries) = .ok (.fromIso s, stripStamp entries dentries) ∧
        traverseData (stripStamp entries dentries) (str "data:_stamp") = none ∧
        processEvent isoValid maps fe (.dict entries) =
          (fmtOf fe (stripStamp entries dentries)).map
            (fun fmt => eventRecord ⟨maps, stripStamp entries dentries⟩ fmt (.fromIso s)) ∧
        ∀ rec, processEvent isoValid maps fe (.dict entries) = .ok rec →
          rec.time = .fromIso s) ∧
    (∀ s, dictGet dentries (str "_stamp") = some (.str s) → isoValid s = false →
        popStamp isoValid (.dict entries) = .error .other ∧
        processEvent isoValid maps fe (.dict entries) = .error .other) ∧
    (dictGet dentries (str "_stamp") = none →
        popStamp isoValid (.dict entries) = .ok (.utcnow, .dict entries) ∧
        processEvent isoValid maps fe (.dict entries) =
          (fmtOf fe (.dict entries)).map
            (fun fmt => eventRecord ⟨maps, .dict entries⟩ fmt .utcnow) ∧
        ∀ rec, processEvent isoValid maps fe (.dict entries) = .ok rec →
          rec.time = .utcnow) := by
  refine ⟨?_, ?_, ?_⟩
  · intro s hs hvalid
    have hpop : popStamp isoValid (.dict entries) =
        .ok (.fromIso s, stripStamp entries dentries) := by
      simp [popStamp, hdata, hs, hvalid, stripStamp]
    have hproc : processEvent isoValid maps fe (.dict entries) =
        (fmtOf fe (stripStamp entries dentries)).map
          (fun fmt => eventRecord ⟨maps, stripStamp entries dentries⟩ fmt (.fromIso s)) := by
      rw [processEvent, hpop]
      cases hf : fmtOf fe (stripStamp entries dentries) <;>
        simp [hf, Bind.bind, Functor.map, Except.bind, Except.map, Pure.pure, Except.pure]
    refine ⟨hpop, traverseData_stripStamp entries dentries hdata, hproc, ?_⟩
    intro rec hrec
    rw [hproc] at hrec
    cases hf : fmtOf fe (stripStamp entries dentries) <;> rw [hf] at hrec <;>
      simp [Functor.map, Except.map] at hrec
    rw [← hrec]
    rfl
  · intro s hs hvalid
    have hpop : popStamp isoValid (.dict entries) = .error .other := by
      simp [popStamp, hdata, hs, hvalid]
    refine ⟨hpop, ?_⟩
    rw [processEvent, hpop]
    rfl
  · intro hs
    have hpop : popStamp isoValid (.dict entries) = .ok (.utcnow, .dict entries) := by
      simp [popStamp, hdata, hs]
    have hproc : processEvent isoValid maps fe (.dict entries) =
        (fmtOf fe (.dict entries)).map
          (fun fmt => eventRecord ⟨maps, .dict entries⟩ fmt .utcnow) := by
      rw [processEvent, hpop]
      cases hf : fmtOf fe (.dict entries) <;>
        simp [hf, Bind.bind, Functor.map, Except.bind, Except.map, Pure.pure, Except.pure]
    refine ⟨hpop, hproc, ?_⟩
    intro rec hrec
    rw [hproc] at hrec
    cases hf : fmtOf fe (.dict entries) <;> rw [hf] at hrec <;>
      simp [Functor.map, Except.map] at hrec
    rw [← hrec]
    rfl

/-- The event of the witness: a `_stamp` alongside payload data. -/
def evStamped : Value :=
  .dict [(str "tag", .str (str "e")),
    (str "data", .dict [(str "_stamp", .str (str "2023-01-01T00:00:00")),
      (str "id", .str (str "m1"))])]

/-- A parser-validity stand-in accepting exactly the witness stamp, which
`datetime.fromisoformat` parses. -/
def acceptsWitnessStamp : Str → Bool := fun s => s == str "2023-01-01T00:00:00"

theorem event_stamp_handling_witness :
    popStamp acceptsWitnessStamp evStamped =
      .ok (.fromIso (str "2023-01-01T00:00:00"),
        .dict [(str "tag", .str (str "e")),
          (str "data", .dict [(str "id", .str (str "m1"))])]) ∧
    traverseData
        (stripStamp
          [(str "tag", .str (str "e")),
            (str "data", .dict [(str "_stamp", .str (str "2023-01-01T00:00:00")),
              (str "id", .str (str "m1"))])]
          [(str "_stamp", .str (str "2023-01-01T00:00:00")), (str "id", .str (str "m1"))])
        (str "data:_stamp") = none := by
  have h := event_stamp_handling acceptsWitnessStamp [] (.single emptyFmt)
    [(str "tag", .str (str "e")),
      (str "data", .dict [(str "_stamp", .str (str "2023-01-01T00:00:00")),
        (str "id", .str (str "m1"))])]
    [(str "_stamp", .str (str "2023-01-01T00:00:00")), (str "id", .str (str "m1"))]
    (by decide)
  have h2 := h.1 (str "2023-01-01T00:00:00") (by decide) (by decide)
  exact ⟨h2.1.trans (by decide), h2.2.1⟩

/-- The event carrying a `_stamp` string that `datetime.fromisoformat`
rejects (`fromisoformat("garbage")` raises `ValueError`). -/
def evMalformed : Value :=
  .dict [(str "tag", .str (str "e")),
    (str "data", .dict [(str "_stamp", .str (str "garbage"))])]

/-- C10 counterexample: a malformed string `_stamp` does not become the
timestamp of a written point — the `ValueError` from
`datetime.fromisoformat` is not caught by the `except KeyError`, so
processing the event yields no record at all, contradicting the claim that
every string `_stamp` is parsed as the point timestamp. -/
theorem event_malformed_stamp_drops_event :
    processEvent (fun s => !(s == str "garbage")) [] (.single emptyFmt) evMalformed =
      .error .other := by
  decide

/-- The function-return template whose only tag fails to render. -/
def failTagFmt : PointFmt :=
  ⟨none, some [(str "t", braced (str "missing"))], some [], none⟩

/-- C4 counterexample: in a function-return point a tag whose templated
value rendered to `None` becomes the four-character string `None`, not the
empty string — only `event_return` maps `None` to `""`; `returner` applies
plain `str(v)`. -/
theorem returner_null_tag_renders_None :
    (returnerRecord ⟨[], .dict []⟩ failTagFmt).tags = [(str "t", str "None")] ∧
    str "None" ≠ ([] : Str) :=
  ⟨by decide, by decide⟩

/-- C4 (amended): in both pipelines every tag value of the rendered point is
the stringification of its projected value, so tag values are always
strings; a tag rendered to `None` becomes the empty string in event points
but the string `None` in function-return points. -/
theorem tag_stringification :
    (∀ (p : Projector) (fmt : PointFmt) (ts : Timestamp) (k sv : Str),
        (k, sv) ∈ (eventRecord p fmt ts).tags →
        ∃ ov, (k, ov) ∈ (projCall p (fmt.tags.getD defaultEventTags)).1 ∧
          sv = eventTagStr ov) ∧
    (∀ (p : Projector) (fmt : PointFmt) (k sv : Str),
        (k, sv) ∈ (returnerRecord p fmt).tags →
        ∃ ov, (k, ov) ∈ (projCall p (fmt.tags.getD defaultFunctionTags)).1 ∧
          sv = returnerTagStr ov) ∧
    eventTagStr none = [] ∧
    returnerTagStr none = str "None" ∧
    (∀ v, eventTagStr (some v) = pyStr v) ∧
    (∀ v, returnerTagStr (some v) = pyStr v) ∧
    (eventRecord ⟨[], .dict []⟩ failTagFmt .utcnow).tags = [(str "t", [])] := by
  refine ⟨?_, ?_, rfl, rfl, fun _ => rfl, fun _ => rfl, by decide⟩
  · intro p fmt ts k sv hmem
    simp only [eventRecord, List.mem_map] at hmem
    obtain ⟨⟨k', ov⟩, hin, heq⟩ := hmem
    simp only [Prod.mk.injEq] at heq
    obtain ⟨hk, hv⟩ := heq
    subst hk
    exact ⟨ov, hin, hv.symm⟩
  · intro p fmt k sv hmem
    simp only [returnerRecord, List.mem_map] at hmem
    obtain ⟨⟨k', ov⟩, hin, heq⟩ := hmem
    simp only [Prod.mk.injEq] at heq
    obtain ⟨hk, hv⟩ := heq
    subst hk
    exact ⟨ov, hin, hv.symm⟩

/-- C6: rendering a template structure renders every key independently — the
output is exactly the per-key rendering in template order, and the warnings
are exactly the failing entries, each identifying its output key and
template string; a failing expression therefore never aborts the remaining
keys and never escapes the projector.  The last conjuncts run a concrete
structure with a failing middle key. -/
theorem projCall_isolates_failures :
    (∀ (p : Projector) (tmpl : List (Str × Str)),
        (projCall p tmpl).1 = tmpl.map (fun kv => (kv.1, renderExpr p kv.2)) ∧
        (projCall p tmpl).2 = tmpl.filter (fun kv => renderExpr p kv.2 = none)) ∧
    (projCall pTest
        [(str "a", braced (str "jid")), (str "b", braced (str "missing")),
          (str "c", str "lit")]).1 =
      [(str "a", some (.int 5)), (str "b", none), (str "c", some (.str (str "lit")))] ∧
    (projCall pTest
        [(str "a", braced (str "jid")), (str "b", braced (str "missing")),
          (str "c", str "lit")]).2 =
      [(str "b", braced (str "missing"))] := by
  refine ⟨fun p tmpl => ?_, by decide, by decide⟩
  induction tmpl with
  | nil => exact ⟨rfl, rfl⟩
  | cons kv rest ih =>
      obtain ⟨k, v⟩ := kv
      obtain ⟨ih1, ih2⟩ := ih
      constructor
      · simp [projCall, ih1]
      · by_cases h : renderExpr p v = none
        · simp [projCall, ih2, h]
        · simp [projCall, ih2, h]


/-!
## Round-trip infrastructure: `str.strip` and line-splitting algebra
-/

theorem dropWhile_eq_self_of_head (p : Char → Bool) (s : Str)
    (h : ∀ c, s.head? = some c → p c = false) : s.dropWhile p = s := by
  cases s with
  | nil => rfl
  | cons c cs =>
      rw [List.dropWhile_cons, h c rfl]
      simp

theorem dropWhile_head_false (p : Char → Bool) (s : Str) :
    ∀ c, (s.dropWhile p).head? = some c → p c = false := by
  induction s with
  | nil => intro c h; simp at h
  | cons x xs ih =>
      intro c h
      rw [List.dropWhile_cons] at h
      by_cases hp : p x = true
      · exact ih c (by simpa [hp] using h)
      · simp only [hp] at h
        simp only [if_neg, Bool.false_eq_true, if_false, List.head?_cons,
          Option.some.injEq] at h
        rw [← h]
        simpa using hp

theorem pyStrip_eq_self (s : Str) (h1 : ∀ c, s.head? = some c → wsChar c = false)
    (h2 : ∀ c, s.getLast? = some c → wsChar c = false) : pyStrip s = s := by
  rw [pyStrip, dropWhile_eq_self_of_head _ _ h1, dropWhile_eq_self_of_head, List.reverse_reverse]
  intro c hc
  rw [List.head?_reverse] at hc
  exact h2 c hc

theorem pyStrip_cons_ws (c : Char) (s : Str) (h : wsChar c = true) :
    pyStrip (c :: s) = pyStrip s := by
  rw [pyStrip, List.dropWhile_cons, h]
  rfl

theorem pyStrip_head_false (s : Str) :
    ∀ c, (pyStrip s).head? = some c → wsChar c = false := by
  intro c hc
  rw [pyStrip, List.head?_reverse] at hc
  generalize hR : (s.dropWhile wsChar).reverse = R at hc
  obtain ⟨pre, hpre⟩ := List.dropWhile_suffix (l := R) wsChar
  have hne : R.dropWhile wsChar ≠ [] := by
    intro hnil
    rw [hnil] at hc
    simp at hc
  have hc2 : R.getLast? = some c := by
    rw [← hpre, List.getLast?_append_of_ne_nil pre hne]
    exact hc
  rw [← hR, List.getLast?_reverse] at hc2
  exact dropWhile_head_false wsChar s c hc2

theorem pyStrip_getLast_false (s : Str) :
    ∀ c, (pyStrip s).getLast? = some c → wsChar c = false := by
  intro c hc
  rw [pyStrip, List.getLast?_reverse] at hc
  exact dropWhile_head_false wsChar _ c hc

theorem pyStrip_idem (s : Str) : pyStrip (pyStrip s) = pyStrip s :=
  pyStrip_eq_self _ (pyStrip_head_false s) (pyStrip_getLast_false s)

theorem splitNl_of_ne_nil (s : Str) (h : s ≠ []) : splitNl s = splitlinesAux [] s := by
  cases s with
  | nil => exact absurd rfl h
  | cons c cs => rfl

theorem splitlinesAux_newline (cur : Str) (b : Str) :
    splitlinesAux cur ('\n' :: b) = cur.reverse :: splitNl b := by
  cases b with
  | nil => rw [splitlinesAux, if_pos rfl, splitNl]
  | cons x xs =>
      rw [splitlinesAux, if_pos rfl, splitNl_of_ne_nil _ (by simp)]

theorem splitlinesAux_no_nl (cur : Str) : ∀ a : Str, '\n' ∉ a →
    splitlinesAux cur a = [cur.reverse ++ a] := by
  intro a
  induction a generalizing cur with
  | nil => intro _; simp [splitlinesAux]
  | cons c cs ih =>
      intro h
      have hc : c ≠ '\n' := fun hcn => h (by simp [hcn])
      cases cs with
      | nil => rw [splitlinesAux, if_neg hc]; simp
      | cons d ds =>
          rw [splitlinesAux, if_neg hc, ih (c :: cur) (fun hm => h (by simp [hm]))]
          simp

theorem splitlinesAux_append : ∀ (a cur b : Str), a ≠ [] → a.getLast? ≠ some '\n' →
    splitlinesAux cur (a ++ '\n' :: b) = splitlinesAux cur a ++ splitNl b := by
  intro a
  induction a with
  | nil => intro cur b h _; exact absurd rfl h
  | cons c cs ih =>
      intro cur b _ hl
      cases hcs : cs with
      | nil =>
          subst hcs
          have hc : c ≠ '\n' := by
            intro hcn
            rw [hcn] at hl
            exact hl rfl
          simp only [List.cons_append, List.nil_append]
          conv_lhs => rw [splitlinesAux, if_neg hc, splitlinesAux_newline]
          conv_rhs => rw [splitlinesAux, if_neg hc]
          simp
      | cons d ds =>
          subst hcs
          have hcs' : (d :: ds : Str) ≠ [] := by simp
          have hl' : (d :: ds : List Char).getLast? ≠ some '\n' := by
            rwa [List.getLast?_cons_cons] at hl
          by_cases hc : c = '\n'
          · subst hc
            simp only [List.cons_append]
            rw [splitlinesAux_newline, splitlinesAux_newline]
            rw [splitNl_of_ne_nil _ (show d :: (ds ++ '\n' :: b) ≠ [] by simp),
              splitNl_of_ne_nil _ hcs']
            have hih := ih [] b hcs' hl'
            simp only [List.cons_append] at hih
            rw [hih]
            simp
          · simp only [List.cons_append]
            conv_lhs => rw [splitlinesAux, if_neg hc]
            conv_rhs => rw [splitlinesAux, if_neg hc]
            have hih := ih (c :: cur) b hcs' hl'
            simp only [List.cons_append] at hih
            exact hih

theorem splitNl_append (a b : Str) (ha : a ≠ []) (hl : a.getLast? ≠ some '\n') :
    splitNl (a ++ '\n' :: b) = splitNl a ++ splitNl b := by
  rw [splitNl_of_ne_nil _ (by simp [ha]), splitNl_of_ne_nil _ ha]
  exact splitlinesAux_append a [] b ha hl

theorem splitNl_newline_cons (b : Str) : splitNl ('\n' :: b) = [] :: splitNl b := by
  rw [splitNl_of_ne_nil _ (by simp), splitlinesAux_newline]
  rfl

theorem splitNl_no_nl (a : Str) (ha : a ≠ []) (h : '\n' ∉ a) : splitNl a = [a] := by
  rw [splitNl_of_ne_nil _ ha, splitlinesAux_no_nl [] a h]
  rfl

theorem splitNl_line_cons (a b : Str) (h : '\n' ∉ a) :
    splitNl (a ++ '\n' :: b) = a :: splitNl b := by
  cases ha : a with
  | nil => simpa using splitNl_newline_cons b
  | cons x xs =>
      rw [← ha, splitNl_append a b (by simp [ha]), splitNl_no_nl a (by simp [ha]) h]
      · rfl
      · intro hlast
        exact h (List.mem_of_mem_getLast? hlast)

theorem splitNl_mem_no_nl (s : Str) : ∀ l ∈ splitNl s, '\n' ∉ l := by
  have haux : ∀ (a cur : Str), '\n' ∉ cur → ∀ l ∈ splitlinesAux cur a, '\n' ∉ l := by
    intro a
    induction a with
    | nil =>
        intro cur hcur l hl
        rw [splitlinesAux] at hl
        simp only [List.mem_singleton] at hl
        subst hl
        simpa using hcur
    | cons c cs ih =>
        intro cur hcur l hl
        cases cs with
        | nil =>
            rw [splitlinesAux] at hl
            by_cases hc : c = '\n'
            · rw [if_pos hc] at hl
              simp only [List.mem_singleton] at hl
              subst hl
              simpa using hcur
            · rw [if_neg hc] at hl
              simp only [List.mem_singleton] at hl
              subst hl
              intro hmem
              rw [List.mem_reverse] at hmem
              rcases List.mem_cons.mp hmem with h1 | h1
              · exact hc h1.symm
              · exact hcur h1
        | cons d ds =>
            rw [splitlinesAux] at hl
            by_cases hc : c = '\n'
            · rw [if_pos hc] at hl
              rcases List.mem_cons.mp hl with h1 | h1
              · subst h1
                simpa using hcur
              · exact ih [] (by simp) l h1
            · rw [if_neg hc] at hl
              refine ih (c :: cur) ?_ l hl
              intro hmem
              rcases List.mem_cons.mp hmem with h1 | h1
              · exact hc h1.symm
              · exact hcur h1
  intro l hl
  cases s with
  | nil => simp [splitNl] at hl
  | cons c cs => exact haux (c :: cs) [] (by simp) l hl

theorem intercalateNL_cons (l : Str) (ls : List Str) (h : ls ≠ []) :
    intercalateNL (l :: ls) = l ++ '\n' :: intercalateNL ls := by
  cases ls with
  | nil => exact absurd rfl h
  | cons x xs => rfl

theorem splitlinesAux_ne_nil : ∀ (a cur : Str), splitlinesAux cur a ≠ [] := by
  intro a
  induction a with
  | nil => intro cur; simp [splitlinesAux]
  | cons c cs ih =>
      intro cur
      cases cs with
      | nil =>
          rw [splitlinesAux]
          split <;> simp
      | cons d ds =>
          rw [splitlinesAux]
          split
          · simp
          · exact ih (c :: cur)

theorem splitNl_ne_nil (s : Str) (hs : s ≠ []) : splitNl s ≠ [] := by
  rw [splitNl_of_ne_nil _ hs]
  exact splitlinesAux_ne_nil s []

theorem intercalateNL_splitlinesAux :
    ∀ (n : ℕ) (a cur : Str), a.length ≤ n → a.getLast? ≠ some '\n' →
      intercalateNL (splitlinesAux cur a) = cur.reverse ++ a := by
  intro n
  induction n with
  | zero =>
      intro a cur ha _
      have haz : a = [] := List.length_eq_zero.mp (Nat.le_zero.mp ha)
      subst haz
      simp [splitlinesAux, intercalateNL]
  | succ n ih =>
      intro a cur ha hlast
      cases a with
      | nil => simp [splitlinesAux, intercalateNL]
      | cons c cs =>
          cases cs with
          | nil =>
              have hc : c ≠ '\n' := by
                intro hcn
                rw [hcn] at hlast
                exact hlast rfl
              rw [splitlinesAux, if_neg hc]
              simp [intercalateNL]
          | cons d ds =>
              have hlast' : (d :: ds : Str).getLast? ≠ some '\n' := by
                rwa [List.getLast?_cons_cons] at hlast
              simp only [List.length_cons] at ha
              by_cases hc : c = '\n'
              · subst hc
                rw [splitlinesAux, if_pos rfl]
                rw [intercalateNL_cons _ _ (splitlinesAux_ne_nil (d :: ds) [])]
                rw [ih (d :: ds) [] (by simp only [List.length_cons]; omega) hlast']
                simp
              · rw [splitlinesAux, if_neg hc]
                rw [ih (d :: ds) (c :: cur) (by simp only [List.length_cons]; omega) hlast']
                simp

theorem intercalateNL_splitNl (s : Str) (hl : s.getLast? ≠ some '\n') :
    intercalateNL (splitNl s) = s := by
  cases s with
  | nil => rfl
  | cons c cs =>
      rw [splitNl_of_ne_nil _ (by simp)]
      simpa using intercalateNL_splitlinesAux (c :: cs).length (c :: cs) [] le_rfl hl

theorem splitNl_intercalateNL :
    ∀ (ls : List Str), ls ≠ [] → (∀ l ∈ ls, '\n' ∉ l) → ls.getLast? ≠ some [] →
      splitNl (intercalateNL ls) = ls := by
  intro ls
  induction ls with
  | nil => intro h _ _; exact absurd rfl h
  | cons l rest ih =>
      intro _ hnl hlast
      cases rest with
      | nil =>
          have hl : l ≠ [] := by
            intro hlz
            rw [hlz] at hlast
            exact hlast rfl
          rw [intercalateNL, splitNl_no_nl l hl (hnl l (by simp))]
      | cons d ds =>
          rw [intercalateNL_cons _ _ (by simp)]
          rw [splitNl_line_cons _ _ (hnl l (by simp))]
          rw [ih (by simp) (fun x hx => hnl x (by simp [hx]))
            (by rwa [List.getLast?_cons_cons] at hlast)]

theorem intercalateNL_append (ls1 ls2 : List Str) (h1 : ls1 ≠ []) (h2 : ls2 ≠ []) :
    intercalateNL (ls1 ++ ls2) = intercalateNL ls1 ++ '\n' :: intercalateNL ls2 := by
  induction ls1 with
  | nil => exact absurd rfl h1
  | cons l rest ih =>
      cases rest with
      | nil =>
          rw [List.singleton_append, intercalateNL_cons _ _ h2]
          rfl
      | cons d ds =>
          rw [List.cons_append, intercalateNL_cons _ _ (by simp), ih (by simp),
            intercalateNL_cons l (d :: ds) (by simp)]
          simp

theorem intercalateNL_head? (l : Str) (ls : List Str) (hl : l ≠ []) :
    (intercalateNL (l :: ls)).head? = l.head? := by
  cases ls with
  | nil => rfl
  | cons d ds =>
      rw [intercalateNL_cons _ _ (by simp)]
      exact List.head?_append_of_ne_nil _ hl

theorem intercalateNL_getLast? :
    ∀ (ls : List Str) (l : Str), ls.getLast? = some l → l ≠ [] →
      (intercalateNL ls).getLast? = l.getLast? := by
  intro ls
  induction ls with
  | nil => intro l h _; simp at h
  | cons x rest ih =>
      intro l h hl
      cases rest with
      | nil =>
          simp only [List.getLast?_singleton, Option.some.injEq] at h
          subst h
          rfl
      | cons d ds =>
          rw [List.getLast?_cons_cons] at h
          have hih := ih l h hl
          have hy : intercalateNL (d :: ds) ≠ [] := by
            intro hz
            rw [hz] at hih
            have hsome : l.getLast?.isSome := List.getLast?_isSome.mpr hl
            rw [← hih] at hsome
            simp at hsome
          rw [intercalateNL_cons _ _ (by simp),
            List.getLast?_append_of_ne_nil _
              (by simp : ('\n' :: intercalateNL (d :: ds)) ≠ [])]
          cases hy2 : intercalateNL (d :: ds) with
          | nil => exact absurd hy2 hy
          | cons a as =>
              rw [hy2] at hih
              rw [List.getLast?_cons_cons]
              exact hih

theorem break_isWs (c : Char) (h : isLineBreak c = true) : wsChar c = true := by
  have hc : c ∈ lineBreakChars := of_decide_eq_true h
  simp only [lineBreakChars, List.mem_cons, List.not_mem_nil, or_false] at hc
  rcases hc with rfl | rfl | rfl | rfl | rfl | rfl | rfl | rfl | rfl | rfl <;> decide

theorem nlNormalize_eq_self : ∀ s : Str, (∀ c ∈ s, isLineBreak c = true → c = '\n') →
    nlNormalize s = s
  | [], _ => rfl
  | [c], h => by
      rw [nlNormalize]
      by_cases hb : isLineBreak c = true
      · rw [if_pos hb, h c (by simp) hb]
      · rw [if_neg (by simpa using hb)]
  | c :: c2 :: cs, h => by
      have hcr : ¬ (c = '\r' ∧ c2 = '\n') := by
        rintro ⟨rfl, -⟩
        exact absurd (h '\r' (by simp) (by decide)) (by decide)
      rw [nlNormalize, if_neg hcr]
      by_cases hb : isLineBreak c = true
      · rw [if_pos hb, h c (by simp) hb,
          nlNormalize_eq_self (c2 :: cs) (fun x hx => h x (by simp [hx]))]
      · rw [if_neg hb, nlNormalize_eq_self (c2 :: cs) (fun x hx => h x (by simp [hx]))]

theorem nlNormalize_onlyNl : ∀ s : Str, ∀ c ∈ nlNormalize s, isLineBreak c = true → c = '\n'
  | [], c, hc, _ => absurd hc (by rw [nlNormalize]; exact List.not_mem_nil c)
  | [x], c, hc, hb => by
      rw [nlNormalize] at hc
      by_cases hx : isLineBreak x = true
      · rw [if_pos hx] at hc
        simpa using hc
      · rw [if_neg hx] at hc
        simp only [List.mem_singleton] at hc
        subst hc
        exact absurd hb hx
  | x :: x2 :: xs, c, hc, hb => by
      rw [nlNormalize] at hc
      by_cases hcr : x = '\r' ∧ x2 = '\n'
      · rw [if_pos hcr] at hc
        rcases List.mem_cons.mp hc with rfl | hc2
        · rfl
        · exact nlNormalize_onlyNl xs c hc2 hb
      · rw [if_neg hcr] at hc
        by_cases hx : isLineBreak x = true
        · rw [if_pos hx] at hc
          rcases List.mem_cons.mp hc with rfl | hc2
          · rfl
          · exact nlNormalize_onlyNl (x2 :: xs) c hc2 hb
        · rw [if_neg hx] at hc
          rcases List.mem_cons.mp hc with rfl | hc2
          · exact absurd hb hx
          · exact nlNormalize_onlyNl (x2 :: xs) c hc2 hb

theorem splitlinesAux_chars : ∀ (a cur : Str), ∀ l ∈ splitlinesAux cur a, ∀ c ∈ l,
    c ∈ cur ∨ c ∈ a
  | [], cur, l, hl, c, hc => by
      rw [splitlinesAux] at hl
      simp only [List.mem_singleton] at hl
      subst hl
      exact Or.inl (by simpa using hc)
  | [x], cur, l, hl, c, hc => by
      rw [splitlinesAux] at hl
      by_cases hx : x = '\n'
      · rw [if_pos hx] at hl
        simp only [List.mem_singleton] at hl
        subst hl
        exact Or.inl (by simpa using hc)
      · rw [if_neg hx] at hl
        simp only [List.mem_singleton] at hl
        subst hl
        have hc2 : c ∈ cur ∨ c = x := by simpa using hc
        rcases hc2 with hc3 | rfl
        · exact Or.inl hc3
        · exact Or.inr (by simp)
  | x :: x2 :: xs, cur, l, hl, c, hc => by
      rw [splitlinesAux] at hl
      by_cases hx : x = '\n'
      · rw [if_pos hx] at hl
        rcases List.mem_cons.mp hl with rfl | hl2
        · exact Or.inl (by simpa using hc)
        · rcases splitlinesAux_chars (x2 :: xs) [] l hl2 c hc with h | h
          · exact absurd h (List.not_mem_nil c)
          · exact Or.inr (by simp [h])
      · rw [if_neg hx] at hl
        rcases splitlinesAux_chars (x2 :: xs) (x :: cur) l hl c hc with h | h
        · rcases List.mem_cons.mp h with rfl | h2
          · exact Or.inr (by simp)
          · exact Or.inl h2
        · exact Or.inr (by simp [h])

theorem splitNl_chars (s : Str) : ∀ l ∈ splitNl s, ∀ c ∈ l, c ∈ s := by
  cases s with
  | nil =>
      intro l hl
      rw [splitNl] at hl
      exact absurd hl (List.not_mem_nil l)
  | cons x xs =>
      intro l hl c hc
      rw [splitNl_of_ne_nil _ (by simp)] at hl
      rcases splitlinesAux_chars (x :: xs) [] l hl c hc with h | h
      · exact absurd h (List.not_mem_nil c)
      · exact h

theorem splitlines_mem_no_break (s : Str) :
    ∀ l ∈ splitlines s, ∀ c ∈ l, isLineBreak c = false := by
  intro l hl c hc
  rw [splitlines] at hl
  by_cases hb : isLineBreak c = true
  · have hcn := nlNormalize_onlyNl s c (splitNl_chars _ l hl c hc) hb
    subst hcn
    exact absurd hc (splitNl_mem_no_nl (nlNormalize s) l hl)
  · simpa using hb

theorem splitlines_eq_splitNl (s : Str) (h : ∀ c ∈ s, isLineBreak c = true → c = '\n') :
    splitlines s = splitNl s := by
  rw [splitlines, nlNormalize_eq_self s h]

theorem pyStrip_subset (s : Str) : ∀ c ∈ pyStrip s, c ∈ s := by
  intro c hc
  rw [pyStrip, List.mem_reverse] at hc
  have h1 := (List.dropWhile_suffix wsChar).sublist.subset hc
  rw [List.mem_reverse] at h1
  exact (List.dropWhile_suffix wsChar).sublist.subset h1

theorem intercalateNL_mem : ∀ ls : List Str, ∀ c ∈ intercalateNL ls,
    c = '\n' ∨ ∃ l ∈ ls, c ∈ l
  | [], c, hc => absurd hc (List.not_mem_nil c)
  | [l], c, hc => Or.inr ⟨l, by simp, by simpa [intercalateNL] using hc⟩
  | l :: d :: ds, c, hc => by
      rw [intercalateNL_cons _ _ (by simp)] at hc
      rcases List.mem_append.mp hc with h | h
      · exact Or.inr ⟨l, by simp, h⟩
      · rcases List.mem_cons.mp h with rfl | h2
        · exact Or.inl rfl
        · rcases intercalateNL_mem (d :: ds) c h2 with h3 | ⟨x, hx1, hx2⟩
          · exact Or.inl h3
          · exact Or.inr ⟨x, by simp [hx1], hx2⟩

theorem infix_split_newline (t u v : Str) (hnl : '\n' ∉ t)
    (h : t <:+: u ++ '\n' :: v) : t <:+: u ∨ t <:+: v := by
  obtain ⟨x, y, hxy⟩ := h
  have hlen := congrArg List.length hxy
  simp only [List.length_append, List.length_cons] at hlen
  by_cases h1 : x.length + t.length ≤ u.length
  · left
    have hp1 : x ++ t <+: u ++ '\n' :: v := ⟨y, hxy⟩
    have hp2 : u <+: u ++ '\n' :: v := List.prefix_append u _
    have hpre : x ++ t <+: u :=
      List.prefix_of_prefix_length_le hp1 hp2 (by simpa using h1)
    obtain ⟨z, hz⟩ := hpre
    exact ⟨x, z, hz⟩
  · by_cases h2 : u.length + 1 ≤ x.length
    · right
      have hs1 : t ++ y <:+ u ++ '\n' :: v := ⟨x, by rw [← List.append_assoc]; exact hxy⟩
      have hs2 : v <:+ u ++ '\n' :: v := ⟨u ++ ['\n'], by simp⟩
      have hsuf : t ++ y <:+ v := by
        apply List.suffix_of_suffix_length_le hs1 hs2
        simp only [List.length_append]
        omega
      obtain ⟨z, hz⟩ := hsuf
      exact ⟨z, y, by rw [List.append_assoc, hz]⟩
    · exfalso
      push_neg at h1 h2
      have hget : (u ++ '\n' :: v).get? u.length = some '\n' := by
        rw [List.get?_append_right (le_refl _)]
        simp
      rw [← hxy, List.append_assoc] at hget
      rw [List.get?_append_right (by omega)] at hget
      rw [List.get?_append (by omega)] at hget
      exact hnl (List.get?_mem hget)

theorem findOptionBlock_append (pre post : Str)
    (hocc : ∀ b : Str, b ≠ [] → b <:+ pre → optTaskPrefix.isPrefixOf (b ++ post) = false) :
    findOptionBlock (pre ++ post) = findOptionBlock post := by
  induction pre with
  | nil => simp
  | cons c cs ih =>
      rw [List.cons_append, findOptionBlock]
      rw [show optTaskPrefix.isPrefixOf (c :: (cs ++ post)) = false from
        hocc (c :: cs) (by simp) (List.suffix_refl _)]
      simp only [Bool.false_eq_true, if_false]
      exact ih (fun b hb hsuf => hocc b hb (hsuf.trans (List.suffix_cons c cs)))

theorem grabContent_exact (C rest : Str) (hC : ∀ c ∈ C, c ≠ rbrace ∧ c ≠ '\n') :
    grabContent (C ++ rbrace :: rest) = some C := by
  induction C with
  | nil => simp [grabContent]
  | cons c cs ih =>
      obtain ⟨hc1, hc2⟩ := hC c (by simp)
      rw [List.cons_append, grabContent, if_neg hc1, if_neg hc2,
        ih (fun x hx => hC x (by simp [hx]))]
      rfl

theorem findOptionBlock_cons (c : Char) (cs : Str) :
    findOptionBlock (c :: cs) =
      if optTaskPrefix.isPrefixOf (c :: cs) then
        match grabContent ((c :: cs).drop optTaskPrefix.length) with
        | some content => some content
        | none => findOptionBlock cs
      else findOptionBlock cs := by
  rw [findOptionBlock]

theorem findOptionBlock_start (C rest : Str) (hC : ∀ c ∈ C, c ≠ rbrace ∧ c ≠ '\n') :
    findOptionBlock (optTaskPrefix ++ C ++ rbrace :: rest) = some C := by
  rw [List.append_assoc]
  cases hfl : optTaskPrefix ++ (C ++ rbrace :: rest) with
  | nil => simp [optTaskPrefix, str] at hfl
  | cons a as =>
      rw [findOptionBlock_cons, ← hfl]
      rw [if_pos (List.isPrefixOf_iff_prefix.mpr (List.prefix_append _ _))]
      rw [List.drop_left, grabContent_exact C rest hC]

theorem findOptionBlock_skip_imps (imps rest : Str) (himp : ¬ optTaskPrefix <:+: imps) :
    findOptionBlock ((imps ++ ['\n', '\n']) ++ (optTaskPrefix ++ rest)) =
      findOptionBlock (optTaskPrefix ++ rest) := by
  apply findOptionBlock_append
  intro b hb hsuf
  by_contra hpref
  rw [Bool.not_eq_false] at hpref
  have hpref' : optTaskPrefix <+: b ++ (optTaskPrefix ++ rest) :=
    List.isPrefixOf_iff_prefix.mp hpref
  have hnl : '\n' ∉ optTaskPrefix := by decide
  by_cases hlen : optTaskPrefix.length ≤ b.length
  · have hob : optTaskPrefix <+: b := by
      apply List.prefix_of_prefix_length_le hpref' (List.prefix_append b _) hlen
    have hinf : optTaskPrefix <:+: imps ++ ['\n', '\n'] := hob.isInfix.trans hsuf.isInfix
    have : optTaskPrefix <:+: imps ++ '\n' :: ['\n'] := by simpa using hinf
    rcases infix_split_newline _ _ _ hnl this with h | h
    · exact himp h
    · have := h.length_le
      simp [optTaskPrefix, str] at this
  · push_neg at hlen
    have hbo : b <+: optTaskPrefix := by
      apply List.prefix_of_prefix_length_le (List.prefix_append b _) hpref'
      omega
    have hlast : b.getLast? = some '\n' := by
      obtain ⟨z, hz⟩ := hsuf
      have : (z ++ b).getLast? = b.getLast? := List.getLast?_append_of_ne_nil z hb
      rw [hz] at this
      rw [← this]
      rw [List.getLast?_append_of_ne_nil _ (by simp : (['\n', '\n'] : Str) ≠ [])]
      rfl
    have hmem : '\n' ∈ b := List.mem_of_mem_getLast? hlast
    exact hnl (hbo.sublist.mem hmem)

theorem isImpLine_parts (l : Str) (h : isImpLine l = true) :
    impPrefix <+: l ∧ l.getLast? = some dquote ∧ 9 ≤ l.length := by
  rw [isImpLine, Bool.and_eq_true, Bool.and_eq_true] at h
  refine ⟨List.isPrefixOf_iff_prefix.mp h.1.1, ?_, by simpa using h.2⟩
  have h2 := h.1.2
  simpa using h2

theorem isImpLine_ne_nil (l : Str) (h : isImpLine l = true) : l ≠ [] := by
  have h9 := (isImpLine_parts l h).2.2
  intro hl
  rw [hl] at h9
  simp at h9

theorem isImpLine_head (l : Str) (h : isImpLine l = true) : l.head? = some 'i' := by
  obtain ⟨⟨r, hr⟩, -, -⟩ := isImpLine_parts l h
  subst hr
  rw [List.head?_append_of_ne_nil _ (by decide : impPrefix ≠ [])]
  decide

theorem isImpLine_getLast (l : Str) (h : isImpLine l = true) : l.getLast? = some dquote :=
  (isImpLine_parts l h).2.1

theorem isImpLine_nil : isImpLine [] = false := by decide

theorem impLine_not_optPrefix (l : Str) (h : isImpLine l = true) :
    optTaskPrefix.isPrefixOf l = false := by
  by_contra hc
  rw [Bool.not_eq_false] at hc
  have h2 : optTaskPrefix <+: l := List.isPrefixOf_iff_prefix.mp hc
  have h1 : impPrefix <+: l := (isImpLine_parts l h).1
  have h3 : impPrefix <+: optTaskPrefix :=
    List.prefix_of_prefix_length_le h1 h2 (by decide)
  exact absurd h3 (by decide)

theorem pyStrip_append_ws (s : Str) (c : Char) (h : wsChar c = true) :
    pyStrip (s ++ [c]) = pyStrip s := by
  rw [pyStrip, pyStrip, List.dropWhile_append]
  by_cases he : (s.dropWhile wsChar).isEmpty
  · rw [if_pos he]
    have hnil : s.dropWhile wsChar = [] := by simpa [List.isEmpty_iff] using he
    rw [hnil]
    simp [List.dropWhile_cons, h]
  · rw [if_neg he]
    rw [List.reverse_append]
    simp only [List.reverse_cons, List.reverse_nil, List.nil_append, List.singleton_append]
    rw [List.dropWhile_cons, h]
    rfl

theorem pyStrip_append_ws_list (t : Str) : ∀ s : Str, (∀ c ∈ t, wsChar c = true) →
    pyStrip (s ++ t) = pyStrip s := by
  induction t with
  | nil => intro s _; simp
  | cons c cs ih =>
      intro s h
      rw [show s ++ c :: cs = (s ++ [c]) ++ cs by simp]
      rw [ih (s ++ [c]) (fun x hx => h x (by simp [hx]))]
      exact pyStrip_append_ws s c (h c (by simp))

theorem fluxFromString_imps_eq (q : Str) :
    (fluxFromString q).imps =
      pyStrip (intercalateNL ((splitNl q).filter isImpLine)) := rfl

theorem fluxFromString_query_eq (q : Str) :
    (fluxFromString q).query =
      pyStrip (intercalateNL ((splitlines q).filter
        (fun l => l ∉ (splitNl q).filter isImpLine))) := rfl

theorem fluxFromString_imps_strip (q : Str) :
    pyStrip (fluxFromString q).imps = (fluxFromString q).imps := by
  rw [fluxFromString_imps_eq]
  exact pyStrip_idem _

theorem fluxFromString_query_strip (q : Str) :
    pyStrip (fluxFromString q).query = (fluxFromString q).query := by
  rw [fluxFromString_query_eq]
  exact pyStrip_idem _

theorem fluxFromString_imps_lines (q : Str) :
    ∀ l ∈ splitNl (fluxFromString q).imps, isImpLine l = true := by
  rw [fluxFromString_imps_eq]
  cases himpL : (splitNl q).filter isImpLine with
  | nil =>
      intro l hl
      simp [intercalateNL, pyStrip, splitNl] at hl
  | cons x xs =>
      intro l hl
      have hmem : ∀ m ∈ x :: xs, isImpLine m = true := by
        intro m hm
        have hm2 : m ∈ (splitNl q).filter isImpLine := himpL ▸ hm
        exact (List.mem_filter.mp hm2).2
      have hnl : ∀ m ∈ x :: xs, '\n' ∉ m := by
        intro m hm
        have hm2 : m ∈ (splitNl q).filter isImpLine := himpL ▸ hm
        exact splitNl_mem_no_nl q m (List.mem_filter.mp hm2).1
      have hsome : ((x :: xs : List Str)).getLast?.isSome := by
        rw [List.getLast?_isSome]
        simp
      obtain ⟨lst, hlst⟩ := Option.isSome_iff_exists.mp hsome
      have hlstmem : lst ∈ x :: xs := List.mem_of_mem_getLast? hlst
      have hlstimp := hmem lst hlstmem
      have hlstne : lst ≠ [] := isImpLine_ne_nil lst hlstimp
      have hstrip : pyStrip (intercalateNL (x :: xs)) = intercalateNL (x :: xs) := by
        apply pyStrip_eq_self
        · intro c hc
          rw [intercalateNL_head? x xs (isImpLine_ne_nil x (hmem x (by simp)))] at hc
          have hx := isImpLine_head x (hmem x (by simp))
          rw [hx, Option.some.injEq] at hc
          rw [← hc]
          decide
        · intro c hc
          rw [intercalateNL_getLast? (x :: xs) lst hlst hlstne] at hc
          have hdq := isImpLine_getLast lst hlstimp
          rw [hdq, Option.some.injEq] at hc
          rw [← hc]
          decide
      rw [hstrip] at hl
      rw [splitNl_intercalateNL (x :: xs) (by simp) hnl
        (by rw [hlst]; simpa using hlstne)] at hl
      exact hmem l hl

theorem fluxFromString_query_onlyNl (q : Str) :
    ∀ c ∈ (fluxFromString q).query, isLineBreak c = true → c = '\n' := by
  intro c hc hb
  rw [fluxFromString_query_eq] at hc
  have hc2 := pyStrip_subset _ c hc
  rcases intercalateNL_mem _ c hc2 with h | ⟨l, hl1, hl2⟩
  · exact h
  · have hl3 : l ∈ splitlines q := (List.mem_filter.mp hl1).1
    exact absurd hb (by simp [splitlines_mem_no_break q l hl3 c hl2])

theorem wordChar_not_break (c : Char) (h : isWordChar c = true) : isLineBreak c = false := by
  by_contra hb
  rw [Bool.not_eq_false] at hb
  have hc : c ∈ lineBreakChars := of_decide_eq_true hb
  simp only [lineBreakChars, List.mem_cons, List.not_mem_nil, or_false] at hc
  rcases hc with rfl | rfl | rfl | rfl | rfl | rfl | rfl | rfl | rfl | rfl <;>
    exact absurd h (by decide)

theorem takeWhile_append_all (p : Char → Bool) (a b : Str)
    (ha : ∀ c ∈ a, p c = true) (hb : ∀ c, b.head? = some c → p c = false) :
    (a ++ b).takeWhile p = a := by
  induction a with
  | nil =>
      cases b with
      | nil => rfl
      | cons c cs => simp [List.takeWhile_cons, hb c rfl]
  | cons x xs ih =>
      rw [List.cons_append, List.takeWhile_cons, ha x (by simp)]
      rw [ih (fun c hc => ha c (by simp [hc]))]
      simp

theorem matchPairAt_nonword (c : Char) (cs : Str) (h : isWordChar c = false) :
    matchPairAt (c :: cs) = none := by
  rw [matchPairAt]
  simp [List.takeWhile_cons, h]

theorem matchPairAt_key_colon (k rest1 : Str) (hk : k ≠ [])
    (hkey : (k ++ ':' :: ' ' :: rest1).takeWhile isWordChar = k) :
    matchPairAt (k ++ ':' :: ' ' :: rest1) =
      (if (dropQuote rest1).takeWhile (fun c => c != ',' && c != dquote) = [] then none
       else some (k, (dropQuote rest1).takeWhile (fun c => c != ',' && c != dquote),
         dropQuote ((dropQuote rest1).drop
           ((dropQuote rest1).takeWhile (fun c => c != ',' && c != dquote)).length))) := by
  rw [matchPairAt, hkey, if_neg hk, List.drop_left]
  split
  · rename_i r heq
    injection heq with h1 heq2
    injection heq2 with h2 heq3
    subst heq3
    rfl
  · rename_i hcontra
    exact (hcontra rest1 rfl).elim

theorem matchPairAt_optEntry (k v : Str) (q : Bool) (tail : Str)
    (hk : k ≠ []) (hkw : ∀ c ∈ k, isWordChar c = true)
    (hv : v ≠ []) (hvc : ∀ c ∈ v, c ≠ ',' ∧ c ≠ dquote)
    (htail : tail = [] ∨ ∃ ts, tail = ',' :: ts) :
    matchPairAt (optEntry k v q ++ tail) = some (k, v, tail) := by
  have hpred : ∀ c ∈ v, (c != ',' && c != dquote) = true := by
    intro c hc
    obtain ⟨h1, h2⟩ := hvc c hc
    simp [h1, h2]
  cases q with
  | true =>
      have hshape : optEntry k v true ++ tail =
          k ++ ':' :: ' ' :: (dquote :: (v ++ dquote :: tail)) := by
        simp [optEntry, str]
      rw [hshape]
      rw [matchPairAt_key_colon k _ hk (takeWhile_append_all isWordChar k _ hkw
        (fun c hc => by rw [List.head?_cons, Option.some.injEq] at hc; rw [← hc]; decide))]
      rw [show dropQuote (dquote :: (v ++ dquote :: tail)) = v ++ dquote :: tail by
        rw [dropQuote, if_pos rfl]]
      have hval : (v ++ dquote :: tail).takeWhile (fun c => c != ',' && c != dquote) = v :=
        takeWhile_append_all _ v _ hpred
          (fun c hc => by rw [List.head?_cons, Option.some.injEq] at hc; rw [← hc]; decide)
      rw [hval, if_neg hv, List.drop_left]
      rw [show dropQuote (dquote :: tail) = tail by rw [dropQuote, if_pos rfl]]
  | false =>
      have hshape : optEntry k v false ++ tail = k ++ ':' :: ' ' :: (v ++ tail) := by
        simp [optEntry, str]
      rw [hshape]
      rw [matchPairAt_key_colon k _ hk (takeWhile_append_all isWordChar k _ hkw
        (fun c hc => by rw [List.head?_cons, Option.some.injEq] at hc; rw [← hc]; decide))]
      have hdq : dropQuote (v ++ tail) = v ++ tail := by
        cases v with
        | nil => exact absurd rfl hv
        | cons y ys =>
            rw [List.cons_append, dropQuote, if_neg]
            have hy := (hvc y (by simp)).2
            simpa using hy
      rw [hdq]
      rcases htail with ht | ⟨ts, ht⟩
      · subst ht
        have hval : (v ++ ([] : Str)).takeWhile (fun c => c != ',' && c != dquote) = v :=
          takeWhile_append_all _ v [] hpred (fun c hc => by simp at hc)
        rw [hval, if_neg hv, List.drop_left]
        rfl
      · subst ht
        have hval : (v ++ ',' :: ts).takeWhile (fun c => c != ',' && c != dquote) = v :=
          takeWhile_append_all _ v _ hpred
            (fun c hc => by rw [List.head?_cons, Option.some.injEq] at hc; rw [← hc]; decide)
        rw [hval, if_neg hv, List.drop_left]
        rw [dropQuote, if_neg (by decide : ¬ (',' : Char) = dquote)]

/-- The safety condition for one rendered options entry: a nonempty
word-character key and a nonempty value free of commas and double quotes. -/
def entrySafe (e : Str × Str × Bool) : Prop :=
  e.1 ≠ [] ∧ (∀ c ∈ e.1, isWordChar c = true) ∧ e.2.1 ≠ [] ∧
    (∀ c ∈ e.2.1, c ≠ ',' ∧ c ≠ dquote)

theorem scanPairs_renderOpts : ∀ es : List (Str × Str × Bool), (∀ e ∈ es, entrySafe e) →
    scanPairs (renderOpts es) = es.map (fun e => (e.1, e.2.1))
  | [], _ => by simp [renderOpts, scanPairs_nil]
  | [e], h => by
      obtain ⟨h1, h2, h3, h4⟩ := h e (by simp)
      have hm := matchPairAt_optEntry e.1 e.2.1 e.2.2 [] h1 h2 h3 h4 (Or.inl rfl)
      rw [List.append_nil] at hm
      rw [show renderOpts [e] = optEntry e.1 e.2.1 e.2.2 from rfl]
      rw [scanPairs_matched _ _ hm]
      simp [scanPairs_nil]
  | e :: e2 :: rest, h => by
      obtain ⟨h1, h2, h3, h4⟩ := h e (by simp)
      have hm := matchPairAt_optEntry e.1 e.2.1 e.2.2
        (',' :: ' ' :: renderOpts (e2 :: rest)) h1 h2 h3 h4 (Or.inr ⟨_, rfl⟩)
      have hro : renderOpts (e :: e2 :: rest) =
          optEntry e.1 e.2.1 e.2.2 ++ (',' :: ' ' :: renderOpts (e2 :: rest)) := by
        rw [show renderOpts (e :: e2 :: rest) =
          optEntry e.1 e.2.1 e.2.2 ++ str ", " ++ renderOpts (e2 :: rest) from rfl]
        simp [str]
      rw [hro, scanPairs_matched _ _ hm]
      rw [scanPairs_skip ',' _ (matchPairAt_nonword ',' _ (by decide))]
      rw [scanPairs_skip ' ' _ (matchPairAt_nonword ' ' _ (by decide))]
      rw [scanPairs_renderOpts (e2 :: rest) (fun x hx => h x (by simp [hx]))]
      rfl

/-- The value-safety condition of the amended round-trip claim: nonempty and
free of commas, double quotes, closing braces and Python line-boundary
characters. -/
def safeValB (v : Str) : Bool :=
  !v.isEmpty && v.all (fun c => c != ',' && c != dquote && c != rbrace && !(isLineBreak c))

theorem safeValB_spec (v : Str) (h : safeValB v = true) :
    v ≠ [] ∧ ∀ c ∈ v, c ≠ ',' ∧ c ≠ dquote ∧ c ≠ rbrace ∧ isLineBreak c = false := by
  rw [safeValB, Bool.and_eq_true, List.all_eq_true] at h
  constructor
  · intro hv
    rw [hv] at h
    simp at h
  · intro c hc
    have hcc := h.2 c hc
    simp only [Bool.and_eq_true, bne_iff_ne, ne_eq, Bool.not_eq_true'] at hcc
    exact ⟨hcc.1.1.1, hcc.1.1.2, hcc.1.2, hcc.2⟩

theorem taskOptsList_entrySafe (t : FluxTask)
    (hN : safeValB t.name = true) (hE : t.every.all safeValB = true)
    (hC : t.cron.all safeValB = true) (hO : t.offset.all safeValB = true) :
    ∀ e ∈ taskOptsList t, entrySafe e := by
  intro e he
  rw [taskOptsList] at he
  have hval : ∀ v : Str, safeValB v = true → v ≠ [] ∧ ∀ c ∈ v, c ≠ ',' ∧ c ≠ dquote := by
    intro v hv
    obtain ⟨hv1, hv2⟩ := safeValB_spec v hv
    exact ⟨hv1, fun c hc => ⟨(hv2 c hc).1, (hv2 c hc).2.1⟩⟩
  have hkey : ∀ ks : String, ks ∈ ["name", "every", "cron", "offset"] →
      (str ks ≠ [] ∧ ∀ c ∈ str ks, isWordChar c = true) := by
    intro ks hks
    fin_cases hks <;> exact ⟨by decide, by decide⟩
  simp only [List.mem_append, List.mem_singleton] at he
  rcases he with ((he | he) | he) | he
  · subst he
    obtain ⟨hv1, hv2⟩ := hval t.name hN
    exact ⟨(hkey "name" (by simp)).1, (hkey "name" (by simp)).2, hv1, hv2⟩
  · rcases hev : t.every with _ | ev
    · rw [hev] at he
      simp at he
    · rw [hev] at he hE
      simp only [List.mem_singleton] at he
      subst he
      rw [Option.all_some] at hE
      obtain ⟨hv1, hv2⟩ := hval ev hE
      exact ⟨(hkey "every" (by simp)).1, (hkey "every" (by simp)).2, hv1, hv2⟩
  · rcases hcr : t.cron with _ | cr
    · rw [hcr] at he
      simp at he
    · rw [hcr] at he hC
      simp only [List.mem_singleton] at he
      subst he
      rw [Option.all_some] at hC
      obtain ⟨hv1, hv2⟩ := hval cr hC
      exact ⟨(hkey "cron" (by simp)).1, (hkey "cron" (by simp)).2, hv1, hv2⟩
  · rcases hof : t.offset with _ | og
    · rw [hof] at he
      simp at he
    · rw [hof] at he hO
      simp only [List.mem_singleton] at he
      subst he
      rw [Option.all_some] at hO
      obtain ⟨hv1, hv2⟩ := hval og hO
      exact ⟨(hkey "offset" (by simp)).1, (hkey "offset" (by simp)).2, hv1, hv2⟩

theorem optEntry_chars (P : Char → Prop) (k v : Str) (q : Bool)
    (hP : P ':' ∧ P ' ' ∧ P dquote) (hk : ∀ c ∈ k, P c) (hv : ∀ c ∈ v, P c) :
    ∀ c ∈ optEntry k v q, P c := by
  intro c hc
  rw [optEntry] at hc
  rcases List.mem_append.mp hc with h1 | h1
  · rcases List.mem_append.mp h1 with h2 | h2
    · exact hk c h2
    · rw [show str ": " = [':', ' '] from rfl] at h2
      have hor : c = ':' ∨ c = ' ' := by
        rcases List.mem_cons.mp h2 with h3 | h3
        · exact Or.inl h3
        · rcases List.mem_cons.mp h3 with h4 | h4
          · exact Or.inr h4
          · exact absurd h4 (List.not_mem_nil c)
      rcases hor with rfl | rfl
      · exact hP.1
      · exact hP.2.1
  · cases q with
    | true =>
        rw [if_pos rfl] at h1
        rcases List.mem_cons.mp h1 with rfl | h2
        · exact hP.2.2
        · rcases List.mem_append.mp h2 with h3 | h3
          · exact hv c h3
          · rcases List.mem_cons.mp h3 with rfl | h4
            · exact hP.2.2
            · exact absurd h4 (List.not_mem_nil c)
    | false =>
        rw [if_neg (by simp)] at h1
        exact hv c h1

theorem renderOpts_chars (P : Char → Prop)
    (hP : P ':' ∧ P ' ' ∧ P ',' ∧ P dquote) :
    ∀ es : List (Str × Str × Bool), (∀ e ∈ es, (∀ c ∈ e.1, P c) ∧ (∀ c ∈ e.2.1, P c)) →
    ∀ c ∈ renderOpts es, P c
  | [], _ => by
      intro c hc
      rw [show renderOpts [] = [] from rfl] at hc
      exact absurd hc (List.not_mem_nil c)
  | [e], h => by
      intro c hc
      rw [show renderOpts [e] = optEntry e.1 e.2.1 e.2.2 from rfl] at hc
      exact optEntry_chars P e.1 e.2.1 e.2.2 ⟨hP.1, hP.2.1, hP.2.2.2⟩
        (h e (by simp)).1 (h e (by simp)).2 c hc
  | e :: e2 :: rest, h => by
      intro c hc
      rw [show renderOpts (e :: e2 :: rest) =
        optEntry e.1 e.2.1 e.2.2 ++ str ", " ++ renderOpts (e2 :: rest) from rfl] at hc
      rcases List.mem_append.mp hc with h1 | h1
      · rcases List.mem_append.mp h1 with h2 | h2
        · exact optEntry_chars P e.1 e.2.1 e.2.2 ⟨hP.1, hP.2.1, hP.2.2.2⟩
            (h e (by simp)).1 (h e (by simp)).2 c h2
        · rw [show str ", " = [',', ' '] from rfl] at h2
          have hor : c = ',' ∨ c = ' ' := by
            rcases List.mem_cons.mp h2 with h3 | h3
            · exact Or.inl h3
            · rcases List.mem_cons.mp h3 with h4 | h4
              · exact Or.inr h4
              · exact absurd h4 (List.not_mem_nil c)
          rcases hor with rfl | rfl
          · exact hP.2.2.1
          · exact hP.2.1
      · exact renderOpts_chars P hP (e2 :: rest) (fun x hx => h x (by simp [hx])) c h1

theorem flux_filter_lines (I B R : Str)
    (hIstrip : pyStrip I = I)
    (hBstrip : pyStrip B = B)
    (hInb : ∀ c ∈ I, isLineBreak c = true → c = '\n')
    (hBnb : ∀ c ∈ B, isLineBreak c = true → c = '\n')
    (hInoOpt : ∀ l ∈ splitNl I, optTaskPrefix.isPrefixOf l = false)
    (hR : ∀ c ∈ R, c ≠ rbrace ∧ isLineBreak c = false)
    (hq : ∀ l ∈ splitNl B, optTaskPrefix.isPrefixOf l = false) :
    pyStrip (intercalateNL ((splitlines ((if I = [] then [] else I ++ ['\n', '\n']) ++
        ((optTaskPrefix ++ R ++ [rbrace]) ++ ('\n' :: '\n' :: (B ++ ['\n']))))).filter
      (fun l => ¬ optTaskPrefix.isPrefixOf l))) =
      if I = [] then B else if B = [] then I else I ++ '\n' :: '\n' :: '\n' :: B := by
  have hoptnb : ∀ c ∈ optTaskPrefix, isLineBreak c = false := by decide
  have hflOnly : ∀ c ∈ (if I = [] then [] else I ++ ['\n', '\n']) ++
      ((optTaskPrefix ++ R ++ [rbrace]) ++ ('\n' :: '\n' :: (B ++ ['\n']))),
      isLineBreak c = true → c = '\n' := by
    intro c hc hbr
    rcases List.mem_append.mp hc with h1 | h1
    · by_cases hI0 : I = []
      · rw [if_pos hI0] at h1
        simp at h1
      · rw [if_neg hI0] at h1
        rcases List.mem_append.mp h1 with h2 | h2
        · exact hInb c h2 hbr
        · rcases List.mem_cons.mp h2 with rfl | h3
          · rfl
          · rcases List.mem_cons.mp h3 with rfl | h4
            · rfl
            · exact absurd h4 (List.not_mem_nil c)
    · rcases List.mem_append.mp h1 with h2 | h2
      · rcases List.mem_append.mp h2 with h3 | h3
        · rcases List.mem_append.mp h3 with h4 | h4
          · exact absurd hbr (by simp [hoptnb c h4])
          · exact absurd hbr (by simp [(hR c h4).2])
        · rcases List.mem_cons.mp h3 with rfl | h4
          · exact absurd hbr (by decide)
          · exact absurd h4 (List.not_mem_nil c)
      · rcases List.mem_cons.mp h2 with rfl | h3
        · rfl
        · rcases List.mem_cons.mp h3 with rfl | h4
          · rfl
          · rcases List.mem_append.mp h4 with h5 | h5
            · exact hBnb c h5 hbr
            · rcases List.mem_cons.mp h5 with rfl | h6
              · rfl
              · exact absurd h6 (List.not_mem_nil c)
  rw [splitlines_eq_splitNl _ hflOnly]
  have hOLnl : '\n' ∉ optTaskPrefix ++ R ++ [rbrace] := by
    intro hmem
    rcases List.mem_append.mp hmem with h1 | h1
    · rcases List.mem_append.mp h1 with h2 | h2
      · exact absurd h2 (by decide)
      · exact absurd (hR _ h2).2 (by decide)
    · rcases List.mem_cons.mp h1 with h2 | h2
      · exact absurd h2 (by decide)
      · exact absurd h2 (List.not_mem_nil _)
  have hOLpref : optTaskPrefix.isPrefixOf (optTaskPrefix ++ R ++ [rbrace]) = true := by
    rw [List.isPrefixOf_iff_prefix, List.append_assoc]
    exact List.prefix_append _ _
  have hnilpref : optTaskPrefix.isPrefixOf ([] : Str) = false := by decide
  have hne : ¬ optTaskPrefix = [] := by decide
  have hIlastne : I.getLast? ≠ some '\n' := by
    intro hc
    have hws := pyStrip_getLast_false I '\n' (by rw [hIstrip]; exact hc)
    exact absurd hws (by decide)
  have hBlastne : B.getLast? ≠ some '\n' := by
    intro hc
    have hws := pyStrip_getLast_false B '\n' (by rw [hBstrip]; exact hc)
    exact absurd hws (by decide)
  have hfilB : List.filter (fun l => ¬ optTaskPrefix.isPrefixOf l) (splitNl B) =
      splitNl B :=
    List.filter_eq_self.mpr (fun l hl => by simp [hq l hl])
  have hfilI : List.filter (fun l => ¬ optTaskPrefix.isPrefixOf l) (splitNl I) =
      splitNl I :=
    List.filter_eq_self.mpr (fun l hl => by simp [hInoOpt l hl])
  have htail : splitNl ((optTaskPrefix ++ R ++ [rbrace]) ++ ('\n' :: '\n' :: (B ++ ['\n']))) =
      (optTaskPrefix ++ R ++ [rbrace]) :: [] :: splitNl (B ++ ['\n']) := by
    rw [splitNl_line_cons _ _ hOLnl, splitNl_newline_cons]
  have hBnl : splitNl (B ++ ['\n']) = if B = [] then [[]] else splitNl B := by
    by_cases hB : B = []
    · subst hB
      rw [if_pos rfl, List.nil_append, splitNl_newline_cons]
      rfl
    · rw [if_neg hB, show B ++ ['\n'] = B ++ '\n' :: [] from rfl,
        splitNl_append B [] hB hBlastne]
      simp [splitNl]
  by_cases hI : I = []
  · rw [if_pos hI, if_pos hI, List.nil_append, htail, hBnl]
    by_cases hB : B = []
    · subst hB
      rw [if_pos rfl]
      have hfil : List.filter (fun l => ¬ optTaskPrefix.isPrefixOf l)
          [optTaskPrefix ++ R ++ [rbrace], [], []] = [[], []] := by
        simp [List.filter_cons, hOLpref, hnilpref, hne]
      rw [hfil]
      rfl
    · rw [if_neg hB]
      have hfil : List.filter (fun l => ¬ optTaskPrefix.isPrefixOf l)
          ((optTaskPrefix ++ R ++ [rbrace]) :: [] :: splitNl B) = [] :: splitNl B := by
        simp [List.filter_cons, hOLpref, hnilpref, hne]
        intro a ha
        rw [← List.isPrefixOf_iff_prefix]
        simp [hq a ha]
      rw [hfil]
      rw [intercalateNL_cons [] (splitNl B) (splitNl_ne_nil B hB)]
      rw [intercalateNL_splitNl B hBlastne]
      rw [List.nil_append]
      rw [pyStrip_cons_ws '\n' B (by decide)]
      exact hBstrip
  · rw [if_neg hI, if_neg hI]
    have hshape : (I ++ ['\n', '\n']) ++
        ((optTaskPrefix ++ R ++ [rbrace]) ++ ('\n' :: '\n' :: (B ++ ['\n']))) =
        I ++ '\n' :: ('\n' ::
          ((optTaskPrefix ++ R ++ [rbrace]) ++ ('\n' :: '\n' :: (B ++ ['\n'])))) := by
      simp
    rw [hshape]
    rw [splitNl_append I _ hI hIlastne]
    rw [splitNl_newline_cons]
    rw [htail, hBnl]
    rw [List.filter_append, hfilI]
    by_cases hB : B = []
    · rw [if_pos hB, if_pos hB]
      have hfil : List.filter (fun l => ¬ optTaskPrefix.isPrefixOf l)
          ([] :: (optTaskPrefix ++ R ++ [rbrace]) :: [] :: [[]]) = [[], [], []] := by
        simp [List.filter_cons, hOLpref, hnilpref, hne]
      rw [hfil]
      rw [intercalateNL_append (splitNl I) [[], [], []] (splitNl_ne_nil I hI) (by simp)]
      rw [intercalateNL_splitNl I hIlastne]
      rw [show intercalateNL [[], [], []] = ['\n', '\n'] from rfl]
      rw [pyStrip_append_ws_list ['\n', '\n', '\n'] I (by decide)]
      exact hIstrip
    · rw [if_neg hB, if_neg hB]
      have hfil : List.filter (fun l => ¬ optTaskPrefix.isPrefixOf l)
          ([] :: (optTaskPrefix ++ R ++ [rbrace]) :: [] :: splitNl B) =
          [] :: [] :: splitNl B := by
        simp [List.filter_cons, hOLpref, hnilpref, hne]
        intro a ha
        rw [← List.isPrefixOf_iff_prefix]
        simp [hq a ha]
      rw [hfil]
      rw [intercalateNL_append (splitNl I) ([] :: [] :: splitNl B)
        (splitNl_ne_nil I hI) (by simp)]
      rw [intercalateNL_splitNl I hIlastne]
      rw [intercalateNL_cons [] ([] :: splitNl B) (by simp)]
      rw [intercalateNL_cons [] (splitNl B) (splitNl_ne_nil B hB)]
      rw [intercalateNL_splitNl B hBlastne]
      simp only [List.nil_append]
      apply pyStrip_eq_self
      · intro c hc
        rw [List.head?_append_of_ne_nil _ hI] at hc
        exact pyStrip_head_false I c (by rw [hIstrip]; exact hc)
      · intro c hc
        rw [show I ++ '\n' :: '\n' :: '\n' :: B = I ++ (['\n', '\n', '\n'] ++ B) from rfl]
          at hc
        rw [List.getLast?_append_of_ne_nil _
          (by simp : (['\n', '\n', '\n'] ++ B : Str) ≠ [])] at hc
        rw [List.getLast?_append_of_ne_nil _ hB] at hc
        exact pyStrip_getLast_false B c (by rw [hBstrip]; exact hc)

theorem fluxFromString_recovered (I B : Str)
    (hIstrip : pyStrip I = I) (hBstrip : pyStrip B = B)
    (hInb : ∀ c ∈ I, isLineBreak c = true → c = '\n')
    (hBnb : ∀ c ∈ B, isLineBreak c = true → c = '\n')
    (hIimp : ∀ l ∈ splitNl I, isImpLine l = true)
    (hb : ∀ l ∈ splitNl B, isImpLine l = false) :
    fluxFromString (if I = [] then B else if B = [] then I else
      I ++ '\n' :: '\n' :: '\n' :: B) = ⟨B, I⟩ := by
  have hIlastne : I.getLast? ≠ some '\n' := by
    intro hc
    have hws := pyStrip_getLast_false I '\n' (by rw [hIstrip]; exact hc)
    exact absurd hws (by decide)
  have hBlastne : B.getLast? ≠ some '\n' := by
    intro hc
    have hws := pyStrip_getLast_false B '\n' (by rw [hBstrip]; exact hc)
    exact absurd hws (by decide)
  have hsI : splitlines I = splitNl I := splitlines_eq_splitNl I hInb
  have hsB : splitlines B = splitNl B := splitlines_eq_splitNl B hBnb
  have hmk : ∀ x : FluxQuery, x.query = B → x.imps = I → x = ⟨B, I⟩ := by
    intro x h1 h2
    cases x
    simp_all
  by_cases hI : I = []
  · subst hI
    rw [if_pos rfl]
    have himps : (splitNl B).filter isImpLine = [] :=
      List.filter_eq_nil_iff.mpr (fun l hl => by simp [hb l hl])
    apply hmk
    · rw [fluxFromString_query_eq]
      simp only [himps]
      have hfil : (splitlines B).filter (fun l => l ∉ ([] : List Str)) = splitlines B :=
        List.filter_eq_self.mpr (fun l hl => by simp)
      rw [hfil, hsB]
      by_cases hB : B = []
      · subst hB
        rfl
      · rw [intercalateNL_splitNl B hBlastne]
        exact hBstrip
    · rw [fluxFromString_imps_eq, himps]
      rfl
  · rw [if_neg hI]
    by_cases hB : B = []
    · subst hB
      rw [if_pos rfl]
      have himps : (splitNl I).filter isImpLine = splitNl I :=
        List.filter_eq_self.mpr (fun l hl => hIimp l hl)
      apply hmk
      · rw [fluxFromString_query_eq]
        simp only [himps]
        rw [hsI]
        have hfilq : (splitNl I).filter (fun l => l ∉ splitNl I) = [] :=
          List.filter_eq_nil_iff.mpr (fun l hl => by simp [hl])
        rw [hfilq]
        rfl
      · rw [fluxFromString_imps_eq, himps, intercalateNL_splitNl I hIlastne]
        exact hIstrip
    · rw [if_neg hB]
      have hQonly : ∀ c ∈ I ++ '\n' :: '\n' :: '\n' :: B, isLineBreak c = true → c = '\n' := by
        intro c hc hbr
        rcases List.mem_append.mp hc with h1 | h1
        · exact hInb c h1 hbr
        · rcases List.mem_cons.mp h1 with rfl | h2
          · rfl
          · rcases List.mem_cons.mp h2 with rfl | h3
            · rfl
            · rcases List.mem_cons.mp h3 with rfl | h4
              · rfl
              · exact hBnb c h4 hbr
      have hsQ : splitlines (I ++ '\n' :: '\n' :: '\n' :: B) =
          splitNl (I ++ '\n' :: '\n' :: '\n' :: B) := splitlines_eq_splitNl _ hQonly
      have hsplit : splitNl (I ++ '\n' :: '\n' :: '\n' :: B) =
          splitNl I ++ [] :: [] :: splitNl B := by
        rw [show I ++ '\n' :: '\n' :: '\n' :: B = I ++ '\n' :: ('\n' :: '\n' :: B) from rfl]
        rw [splitNl_append I _ hI hIlastne, splitNl_newline_cons, splitNl_newline_cons]
      have himps : (splitNl (I ++ '\n' :: '\n' :: '\n' :: B)).filter isImpLine =
          splitNl I := by
        rw [hsplit, List.filter_append]
        rw [List.filter_eq_self.mpr (fun l hl => hIimp l hl)]
        rw [show List.filter isImpLine ([] :: [] :: splitNl B) =
          List.filter isImpLine (splitNl B) from by
            simp [List.filter_cons, isImpLine_nil]]
        rw [List.filter_eq_nil_iff.mpr (fun l hl => by simp [hb l hl])]
        simp
      have hnotmemI : ∀ l ∈ ([] : Str) :: [] :: splitNl B, l ∉ splitNl I := by
        intro l hl hmem
        have himp := hIimp l hmem
        rcases List.mem_cons.mp hl with rfl | hl2
        · rw [isImpLine_nil] at himp
          exact absurd himp (by simp)
        · rcases List.mem_cons.mp hl2 with rfl | hl3
          · rw [isImpLine_nil] at himp
            exact absurd himp (by simp)
          · rw [hb l hl3] at himp
            exact absurd himp (by simp)
      have hfilq : (splitlines (I ++ '\n' :: '\n' :: '\n' :: B)).filter
          (fun l => l ∉ (splitNl (I ++ '\n' :: '\n' :: '\n' :: B)).filter isImpLine) =
          [] :: [] :: splitNl B := by
        simp only [himps]
        rw [hsQ, hsplit, List.filter_append]
        rw [List.filter_eq_nil_iff.mpr (fun l hl => by simp [hl])]
        rw [List.filter_eq_self.mpr (fun l hl => by simp [hnotmemI l hl])]
        simp
      apply hmk
      · rw [fluxFromString_query_eq, hfilq]
        rw [intercalateNL_cons [] ([] :: splitNl B) (by simp)]
        rw [intercalateNL_cons [] (splitNl B) (splitNl_ne_nil B hB)]
        rw [intercalateNL_splitNl B hBlastne]
        simp only [List.nil_append]
        rw [pyStrip_cons_ws '\n' _ (by decide), pyStrip_cons_ws '\n' _ (by decide)]
        exact hBstrip
      · rw [fluxFromString_imps_eq, himps, intercalateNL_splitNl I hIlastne]
        exact hIstrip

theorem taskOptsList_vals (t : FluxTask)
    (hN : safeValB t.name = true) (hE : t.every.all safeValB = true)
    (hC : t.cron.all safeValB = true) (hO : t.offset.all safeValB = true) :
    ∀ e ∈ taskOptsList t, safeValB e.2.1 = true := by
  intro e he
  rw [taskOptsList] at he
  simp only [List.mem_append, List.mem_singleton] at he
  rcases he with ((he | he) | he) | he
  · subst he
    exact hN
  · rcases hev : t.every with _ | ev
    · rw [hev] at he
      simp at he
    · rw [hev] at he hE
      simp only [List.mem_singleton] at he
      subst he
      rw [Option.all_some] at hE
      exact hE
  · rcases hcr : t.cron with _ | cr
    · rw [hcr] at he
      simp at he
    · rw [hcr] at he hC
      simp only [List.mem_singleton] at he
      subst he
      rw [Option.all_some] at hC
      exact hC
  · rcases hof : t.offset with _ | og
    · rw [hof] at he
      simp at he
    · rw [hof] at he hO
      simp only [List.mem_singleton] at he
      subst he
      rw [Option.all_some] at hO
      exact hO

theorem taskOpts_lookup_name (t : FluxTask) :
    pairsLookup ((taskOptsList t).map (fun e => (e.1, e.2.1))) (str "name") = some t.name := by
  rcases hev : t.every with _ | ev <;> rcases hcr : t.cron with _ | cr <;>
    rcases hof : t.offset with _ | og <;>
    simp +decide [taskOptsList, hev, hcr, hof, pairsLookup]

theorem taskOpts_lookup_every (t : FluxTask) :
    pairsLookup ((taskOptsList t).map (fun e => (e.1, e.2.1))) (str "every") = t.every := by
  rcases hev : t.every with _ | ev <;> rcases hcr : t.cron with _ | cr <;>
    rcases hof : t.offset with _ | og <;>
    simp +decide [taskOptsList, hev, hcr, hof, pairsLookup]

theorem taskOpts_lookup_cron (t : FluxTask) :
    pairsLookup ((taskOptsList t).map (fun e => (e.1, e.2.1))) (str "cron") = t.cron := by
  rcases hev : t.every with _ | ev <;> rcases hcr : t.cron with _ | cr <;>
    rcases hof : t.offset with _ | og <;>
    simp +decide [taskOptsList, hev, hcr, hof, pairsLookup]

theorem taskOpts_lookup_offset (t : FluxTask) :
    pairsLookup ((taskOptsList t).map (fun e => (e.1, e.2.1))) (str "offset") = t.offset := by
  rcases hev : t.every with _ | ev <;> rcases hcr : t.cron with _ | cr <;>
    rcases hof : t.offset with _ | og <;>
    simp +decide [taskOptsList, hev, hcr, hof, pairsLookup]

theorem taskOpts_allowed (t : FluxTask) :
    ((taskOptsList t).map (fun e => (e.1, e.2.1))).all
      (fun kv => kv.1 ∈ allowedKeys) = true := by
  rcases hev : t.every with _ | ev <;> rcases hcr : t.cron with _ | cr <;>
    rcases hof : t.offset with _ | og <;>
    simp +decide [taskOptsList, hev, hcr, hof]

/-- **C3** (amended): round trip of the task codec.  For a task whose
option values (name, every, cron, offset) are nonempty and free of commas,
double quotes, closing braces and Python line-boundary characters, whose
hoisted imports contain no line-boundary character other than newline and
do not embed an option-block opener, and whose query body contains no line
that opens an option block or matches the import-line pattern, decoding the
encoded task yields exactly the task rebuilt by the constructor from the
original name, query, every, cron and offset — i.e. the codec is lossless
over this field set, with the query compared modulo import hoisting and
normalisation. -/
theorem taskRoundTrip_spec (t : FluxTask)
    (hN : safeValB t.name = true)
    (hE : t.every.all safeValB = true)
    (hC : t.cron.all safeValB = true)
    (hO : t.offset.all safeValB = true)
    (hInb : ∀ c ∈ (fluxFromString t.query).imps, isLineBreak c = true → c = '\n')
    (himp : ¬ optTaskPrefix <:+: (fluxFromString t.query).imps)
    (hq : ∀ l ∈ splitlines (fluxFromString t.query).query,
      optTaskPrefix.isPrefixOf l = false)
    (hb : ∀ l ∈ splitlines (fluxFromString t.query).query, isImpLine l = false) :
    fromFlux (toFlux t) = .ok (FluxTask.make t.name t.query t.every t.cron t.offset) := by
  have hsafe := taskOptsList_entrySafe t hN hE hC hO
  have hvals := taskOptsList_vals t hN hE hC hO
  have hBnb := fluxFromString_query_onlyNl t.query
  have hsB : splitlines (fluxFromString t.query).query =
      splitNl (fluxFromString t.query).query := splitlines_eq_splitNl _ hBnb
  have hq2 : ∀ l ∈ splitNl (fluxFromString t.query).query,
      optTaskPrefix.isPrefixOf l = false := by
    intro l hl
    exact hq l (by rw [hsB]; exact hl)
  have hb2 : ∀ l ∈ splitNl (fluxFromString t.query).query, isImpLine l = false := by
    intro l hl
    exact hb l (by rw [hsB]; exact hl)
  have hRsafe : ∀ c ∈ renderOpts (taskOptsList t), c ≠ rbrace ∧ isLineBreak c = false := by
    apply renderOpts_chars (fun c => c ≠ rbrace ∧ isLineBreak c = false)
      ⟨by decide, by decide, by decide, by decide⟩
    intro e he
    constructor
    · intro c hc
      have hw := (hsafe e he).2.1 c hc
      exact ⟨fun hcc => absurd (hcc ▸ hw) (by decide), wordChar_not_break c hw⟩
    · intro c hc
      have hv := (safeValB_spec _ (hvals e he)).2 c hc
      exact ⟨hv.2.2.1, hv.2.2.2⟩
  have hRsafeNl : ∀ c ∈ renderOpts (taskOptsList t), c ≠ rbrace ∧ c ≠ '\n' := by
    intro c hc
    refine ⟨(hRsafe c hc).1, ?_⟩
    intro hcn
    have hbr := (hRsafe c hc).2
    rw [hcn] at hbr
    exact absurd hbr (by decide)
  have hflux : toFlux t =
      (if (fluxFromString t.query).imps = [] then []
        else (fluxFromString t.query).imps ++ ['\n', '\n']) ++
      ((optTaskPrefix ++ renderOpts (taskOptsList t) ++ [rbrace]) ++
        ('\n' :: '\n' :: ((fluxFromString t.query).query ++ ['\n']))) := by
    simp only [toFlux]
    by_cases hI : (fluxFromString t.query).imps = []
    · simp [hI, str, List.append_assoc]
    · simp [hI, str, List.append_assoc]
  have hfind : findOptionBlock (toFlux t) = some (renderOpts (taskOptsList t)) := by
    rw [hflux]
    by_cases hI : (fluxFromString t.query).imps = []
    · rw [if_pos hI, List.nil_append]
      have h1 := findOptionBlock_start (renderOpts (taskOptsList t))
        ('\n' :: '\n' :: ((fluxFromString t.query).query ++ ['\n'])) hRsafeNl
      simpa [List.append_assoc] using h1
    · rw [if_neg hI]
      have h2 := findOptionBlock_skip_imps (fluxFromString t.query).imps
        (renderOpts (taskOptsList t) ++ [rbrace] ++
          ('\n' :: '\n' :: ((fluxFromString t.query).query ++ ['\n']))) himp
      rw [show (optTaskPrefix ++ renderOpts (taskOptsList t) ++ [rbrace]) ++
          ('\n' :: '\n' :: ((fluxFromString t.query).query ++ ['\n'])) =
          optTaskPrefix ++ (renderOpts (taskOptsList t) ++ [rbrace] ++
            ('\n' :: '\n' :: ((fluxFromString t.query).query ++ ['\n']))) from by
        simp [List.append_assoc]]
      rw [h2]
      have h1 := findOptionBlock_start (renderOpts (taskOptsList t))
        ('\n' :: '\n' :: ((fluxFromString t.query).query ++ ['\n'])) hRsafeNl
      simpa [List.append_assoc] using h1
  have hQ := flux_filter_lines (fluxFromString t.query).imps (fluxFromString t.query).query
    (renderOpts (taskOptsList t))
    (fluxFromString_imps_strip t.query) (fluxFromString_query_strip t.query)
    hInb hBnb
    (fun l hl => impLine_not_optPrefix l (fluxFromString_imps_lines t.query l hl))
    hRsafe hq2
  have hQ2 := fluxFromString_recovered (fluxFromString t.query).imps
    (fluxFromString t.query).query
    (fluxFromString_imps_strip t.query) (fluxFromString_query_strip t.query)
    hInb hBnb
    (fluxFromString_imps_lines t.query) hb2
  have hscan := scanPairs_renderOpts (taskOptsList t) hsafe
  simp only [fromFlux]
  rw [hfind]
  dsimp only
  rw [hscan, taskOpts_allowed t]
  rw [if_pos (rfl : (true : Bool) = true)]
  rw [taskOpts_lookup_name t]
  dsimp only
  rw [taskOpts_lookup_every t, taskOpts_lookup_cron t, taskOpts_lookup_offset t]
  rw [hflux, hQ]
  simp only [FluxTask.make]
  rw [hQ2]

/-- The spec's concrete example task: name `t`, query `from(bucket:"b")`,
every `1m`, cron and offset unset. -/
def exTask : FluxTask :=
  FluxTask.make (str "t") (str "from(bucket:\"b\")") (some (str "1m")) none none

theorem taskRoundTrip_spec_witness :
    fromFlux (toFlux exTask) =
      .ok (FluxTask.make exTask.name exTask.query exTask.every exTask.cron exTask.offset) :=
  taskRoundTrip_spec exTask (by decide) (by decide) (by decide) (by decide)
    (by decide) (by decide) (by decide) (by decide)

/-- Counterexample to the unqualified C3 claim: a task name containing a
comma (with a query body free of embedded option blocks) is truncated at
the comma by the decoder, so the round trip is not lossless without the
value-safety proviso. -/
theorem taskRoundTrip_comma_loses_name :
    fromFlux (toFlux (FluxTask.make (str "a,b") (str "x") none none none)) =
      .ok (FluxTask.make (str "a") (str "x") none none none) ∧
    (str "a,b" : Str) ≠ str "a" := by
  constructor
  · decide
  · decide
